import Mathlib

/-!
# Portfolio site: particle field and post scaffold

A shallow embedding of `script.js` (class `ParticleSystem`, theme start-up) and of
`create-post.js` (main execution).

The arithmetic is read in two ways.  Where a property needs no exactness (bounds after the
clamp, sign flips, counts, the order of the loops) JavaScript numbers are the elements of a
linearly ordered field `K`, `Math.sqrt` is the parameter `sqrt : K → K` and `Math.random` a
stream `rnd : Nat → K` of the values it hands out, in call order.  Where rounding decides
(the pointer nudge, the line opacity, the distance test of the connection pass) numbers are
doubles: rationals with every operation followed by `roundDouble`, and `Math.sqrt` is
`sqrtDouble`.
-/

namespace Portfolio

/-- One particle object as pushed by `createParticles`: `{ x, y, vx, vy, size }`. -/
structure Particle (K : Type) where
  x : K
  y : K
  vx : K
  vy : K
  size : K
deriving DecidableEq, Repr

/-- The pointer record `this.mouse = { x, y }`. -/
structure Mouse (K : Type) where
  x : K
  y : K
deriving DecidableEq, Repr

/-- The fields of a `ParticleSystem` instance that the methods read and write.
`width` and `height` stand for `this.canvas.width` and `this.canvas.height`. -/
structure ParticleSystem (K : Type) where
  width : K
  height : K
  particles : List (Particle K)
  mouse : Mouse K
  maxParticles : Nat
  connectionDistance : K

section Field

variable {K : Type} [LinearOrderedField K]

/-- `resize()`: the canvas takes the window's inner width and height. -/
def resize (s : ParticleSystem K) (innerWidth innerHeight : K) : ParticleSystem K :=
  { s with width := innerWidth, height := innerHeight }

/-- The object literal built in iteration `i` of the loop of `createParticles`; its five
`Math.random()` calls are numbers `5 i .. 5 i + 4` of the stream. -/
def newParticle (rnd : Nat → K) (w h : K) (i : Nat) : Particle K :=
  { x := rnd (5 * i) * w
    y := rnd (5 * i + 1) * h
    vx := (rnd (5 * i + 2) - 0.5) * 0.5
    vy := (rnd (5 * i + 3) - 0.5) * 0.5
    size := rnd (5 * i + 4) * 2 + 1 }

/-- The loop `for (let i = 0; i < maxParticles; i++) particles.push(...)`, started on the
empty array: after `n` iterations. -/
def createLoop (rnd : Nat → K) (w h : K) : Nat → List (Particle K)
  | 0 => []
  | n + 1 => createLoop rnd w h n ++ [newParticle rnd w h n]

/-- `createParticles()`: the particle array is replaced by `maxParticles` new particles. -/
def createParticles (s : ParticleSystem K) (rnd : Nat → K) : ParticleSystem K :=
  { s with particles := createLoop rnd s.width s.height s.maxParticles }

/-- The `resize` listener of `bindEvents`: `resize()` then `createParticles()`. -/
def onResize (s : ParticleSystem K) (innerWidth innerHeight : K) (rnd : Nat → K) :
    ParticleSystem K :=
  createParticles (resize s innerWidth innerHeight) rnd

/-- The `mousemove` listener of `bindEvents`. -/
def onMouseMove (s : ParticleSystem K) (clientX clientY : K) : ParticleSystem K :=
  { s with mouse := { x := clientX, y := clientY } }

/-- The amount added to the position by the "mouse interaction" block of
`updateParticles`, for a particle already moved to `(x, y)`: `(dx, dy) * force * 0.01`
inside the radius of 100, nothing outside. -/
def nudge (sqrt : K → K) (mouse : Mouse K) (x y : K) : K × K :=
  let dx := mouse.x - x
  let dy := mouse.y - y
  let distance := sqrt (dx * dx + dy * dy)
  if distance < 100 then
    let force := (100 - distance) / 100
    (dx * force * 0.01, dy * force * 0.01)
  else (0, 0)

/-- Position of a particle after `x += vx; y += vy` and the mouse interaction, before the
edge test and the clamp. -/
def movedPos (sqrt : K → K) (mouse : Mouse K) (p : Particle K) : K × K :=
  let x := p.x + p.vx
  let y := p.y + p.vy
  let n := nudge sqrt mouse x y
  (x + n.1, y + n.2)

/-- The body of the loop of `updateParticles` for one particle. -/
def updateParticle (sqrt : K → K) (w h : K) (mouse : Mouse K) (p : Particle K) :
    Particle K :=
  let pos := movedPos sqrt mouse p
  let vx := if pos.1 < 0 ∨ pos.1 > w then p.vx * -1 else p.vx
  let vy := if pos.2 < 0 ∨ pos.2 > h then p.vy * -1 else p.vy
  { x := max 0 (min w pos.1)
    y := max 0 (min h pos.2)
    vx := vx
    vy := vy
    size := p.size }

/-- `updateParticles()`: every particle of the array is updated in place, in order.  The
`isDark` constant read at its start is not used by the method. -/
def updateParticles (sqrt : K → K) (s : ParticleSystem K) : ParticleSystem K :=
  { s with particles := s.particles.map (updateParticle sqrt s.width s.height s.mouse) }

/-- A run of ticks: before each tick the pointer may have moved (the latest `mousemove`
wins), then `updateParticles` runs. -/
def runTicks (sqrt : K → K) (s : ParticleSystem K) : List (Mouse K) → ParticleSystem K
  | [] => s
  | m :: ms => runTicks sqrt (updateParticles sqrt (onMouseMove s m.x m.y)) ms

/-- A particle lies on the canvas `[0, w] × [0, h]`. -/
def InBounds (w h : K) (p : Particle K) : Prop :=
  0 ≤ p.x ∧ p.x ≤ w ∧ 0 ≤ p.y ∧ p.y ≤ h

/-- One stroked segment of the connection pass of `drawParticles`: the indices of the two
particles it joins, `ctx.globalAlpha` at the stroke, and the `moveTo` / `lineTo` points. -/
structure Line (K : Type) where
  i : Nat
  j : Nat
  alpha : K
  x1 : K
  y1 : K
  x2 : K
  y2 : K
deriving DecidableEq, Repr

/-- The value given to `ctx.globalAlpha` for a pair at distance `d`:
`opacity = (connectionDistance - distance) / connectionDistance`, then `opacity * 0.3`. -/
def lineAlpha (c d : K) : K :=
  let opacity := (c - d) / c
  opacity * 0.3

/-- The `distance` computed for a pair in `drawParticles`. -/
def pairDistance (sqrt : K → K) (p q : Particle K) : K :=
  let dx := p.x - q.x
  let dy := p.y - q.y
  sqrt (dx * dx + dy * dy)

/-- The index pairs visited by `for (i = 0; i < n; i++) for (j = i + 1; j < n; j++)`,
in visiting order. -/
def pairLoop (n : Nat) : List (Nat × Nat) :=
  (List.range n).flatMap fun i => (List.range' (i + 1) (n - (i + 1))).map fun j => (i, j)

/-- The body of the inner loop of `drawParticles` for the pair `(i, j)`: the segment
stroked, if any. -/
def connection (sqrt : K → K) (c : K) (ps : List (Particle K)) (i j : Nat) :
    Option (Line K) :=
  match ps[i]?, ps[j]? with
  | some p, some q =>
    let distance := pairDistance sqrt p q
    if distance < c then
      some { i := i, j := j, alpha := lineAlpha c distance,
             x1 := p.x, y1 := p.y, x2 := q.x, y2 := q.y }
    else none
  | _, _ => none

/-- The connection pass of `drawParticles`: all segments stroked, in order. -/
def connections (sqrt : K → K) (c : K) (ps : List (Particle K)) : List (Line K) :=
  (pairLoop ps.length).filterMap fun ij => connection sqrt c ps ij.1 ij.2

end Field

/-- A CSS colour `rgba(r, g, b, a)`. -/
structure Rgba where
  r : Nat
  g : Nat
  b : Nat
  a : ℚ
deriving DecidableEq, Repr

/-- The `particleColor` chosen by `drawParticles`. -/
def particleColor (isDark : Bool) : Rgba :=
  if isDark then { r := 59, g := 130, b := 246, a := 0.6 }
  else { r := 59, g := 130, b := 246, a := 0.4 }

/-- The `lineColor` chosen by `drawParticles`. -/
def lineColor (isDark : Bool) : Rgba :=
  if isDark then { r := 59, g := 130, b := 246, a := 0.1 }
  else { r := 59, g := 130, b := 246, a := 0.08 }

/-- What one call of `drawParticles` puts on the cleared canvas. -/
structure Frame (K : Type) where
  strokeStyle : Rgba
  lineWidth : Nat
  lines : List (Line K)
  fillAlpha : K
  fillStyle : Rgba
  circles : List (K × K × K)
  finalAlpha : K

/-- `drawParticles()`, with `isDark` the result of
`document.documentElement.classList.contains('dark')`. -/
def drawParticles {K : Type} [LinearOrderedField K] (sqrt : K → K) (isDark : Bool)
    (s : ParticleSystem K) : Frame K :=
  { strokeStyle := lineColor isDark
    lineWidth := 1
    lines := connections sqrt s.connectionDistance s.particles
    fillAlpha := 0.7
    fillStyle := particleColor isDark
    circles := s.particles.map fun p => (p.x, p.y, p.size)
    finalAlpha := 1 }

/-- The part of the page that the theme code touches: whether the document root carries
the class `dark`, whether each icon carries the class `hidden`, and the `theme` entry of
`localStorage` (`none` when `getItem` returns `null`). -/
structure ThemeState where
  rootDark : Bool
  darkIconHidden : Bool
  lightIconHidden : Bool
  saved : Option String
deriving DecidableEq, Repr

/-- JavaScript truthiness of `savedTheme`: `null` and the empty string are falsy. -/
def truthy (savedTheme : Option String) : Bool :=
  match savedTheme with
  | none => false
  | some v => v != ""

/-- The start-up block of `script.js` (lines 7 to 16); `prefersDark` is
`window.matchMedia('(prefers-color-scheme: dark)').matches`. -/
def initTheme (st : ThemeState) (prefersDark : Bool) : ThemeState :=
  let savedTheme := st.saved
  if savedTheme = some "dark" ∨ (truthy savedTheme = false ∧ prefersDark = true) then
    { st with rootDark := true, darkIconHidden := true, lightIconHidden := false }
  else
    { st with rootDark := false, lightIconHidden := true, darkIconHidden := false }

/-- The click listener of the theme toggle. -/
def toggleTheme (st : ThemeState) : ThemeState :=
  let isDark := st.rootDark
  if isDark then
    { rootDark := false, saved := some "light", lightIconHidden := true,
      darkIconHidden := false }
  else
    { rootDark := true, saved := some "dark", darkIconHidden := true,
      lightIconHidden := false }

/-- Membership in the character class `[a-z0-9]`. -/
def isSlugChar (c : Char) : Bool :=
  ('a' ≤ c && c ≤ 'z') || ('0' ≤ c && c ≤ '9')

/-- `.replace(/[^a-z0-9]+/g, '-')` on the characters of a string: every maximal run of
characters outside `[a-z0-9]` becomes one hyphen.  `inRun` tells that the hyphen of the
current run has been written. -/
def replaceRuns : Bool → List Char → List Char
  | _, [] => []
  | inRun, c :: cs =>
    if isSlugChar c then c :: replaceRuns false cs
    else if inRun then replaceRuns true cs
    else '-' :: replaceRuns true cs

/-- The alternative `^-` of `/^-|-$/g`: a hyphen at the start is removed. -/
def stripLeading : List Char → List Char
  | '-' :: cs => cs
  | cs => cs

/-- The alternative `-$` of `/^-|-$/g`, tried on what follows the first match: a hyphen
at the end is removed. -/
def stripTrailing (cs : List Char) : List Char :=
  if cs.getLast? = some '-' then cs.dropLast else cs

/-- `generateSlug(title)`.  `toLowerCase` is `String.prototype.toLowerCase`. -/
def generateSlug (toLowerCase : String → String) (title : String) : String :=
  String.mk (stripTrailing (stripLeading (replaceRuns false (toLowerCase title).data)))

/-- `toLowerCase` on ASCII text. -/
def asciiLower (s : String) : String :=
  String.mk (s.data.map Char.toLower)

/-- `formatDate(date)`, on the result `iso` of `date.toISOString()`: the part before the
first `T`. -/
def formatDate (iso : String) : String :=
  String.mk (iso.data.takeWhile fun c => c != 'T')

/-- The text of a written file, by the template that produced it and its arguments. -/
inductive Content where
  | frontmatter (title date : String)
  | htmlTemplate (title slug content date : String)
deriving DecidableEq, Repr

/-- `generateFrontmatter(title)`; `iso` is the clock reading taken inside it. -/
def generateFrontmatter (title iso : String) : Content :=
  Content.frontmatter title (formatDate iso)

/-- `generateHTMLTemplate(title, slug, content, date)`. -/
def generateHTMLTemplate (title slug content date : String) : Content :=
  Content.htmlTemplate title slug content date

/-- `path.join(__dirname, 'blog', name)`. -/
def blogPath (dirname name : String) : String :=
  dirname ++ "/" ++ "blog" ++ "/" ++ name

/-- The placeholder paragraph passed as `content` by the main block. -/
def placeholder : String :=
  "<p class=\"text-lg text-gray-600 dark:text-gray-300 mb-8\">Please edit this HTML file and replace this placeholder with your actual blog post content.</p>"

/-- The outcome of one run of `create-post.js`: the files written by `fs.writeFileSync`,
in order, and the exit code of the process. -/
structure Run where
  writes : List (String × Content)
  exitCode : Nat
deriving DecidableEq, Repr

/-- The script `create-post.js`.  `argv2` is `process.argv[2]`, `isoMain` and `isoFront`
are the two clock readings, `canWrite path` tells whether `fs.writeFileSync` to `path`
returns (`true`) or throws. Console output is left out. -/
def createPost (toLowerCase : String → String) (dirname : String) (argv2 : Option String)
    (isoMain isoFront : String) (canWrite : String → Bool) : Run :=
  match argv2 with
  | none => { writes := [], exitCode := 1 }
  | some postTitle =>
    if postTitle = "" then { writes := [], exitCode := 1 }
    else
      let slug := generateSlug toLowerCase postTitle
      let dateString := formatDate isoMain
      let markdownContent := generateFrontmatter postTitle isoFront
      let markdownPath := blogPath dirname (slug ++ ".md")
      if canWrite markdownPath then
        let htmlContent := generateHTMLTemplate postTitle slug placeholder dateString
        let htmlPath := blogPath dirname (slug ++ ".html")
        if canWrite htmlPath then
          { writes := [(markdownPath, markdownContent), (htmlPath, htmlContent)],
            exitCode := 0 }
        else { writes := [(markdownPath, markdownContent)], exitCode := 1 }
      else { writes := [], exitCode := 1 }


section Demo

variable {K : Type} [LinearOrderedField K]

/-- The state left by the first statements of the constructor: `particles = []`,
`mouse = { x: 0, y: 0 }`, `maxParticles = 50`, `connectionDistance = 100`, then `resize()`
and `createParticles()`.  `canvasWidth` and `canvasHeight` are the size of the canvas
element before the constructor runs. -/
def construct (canvasWidth canvasHeight innerWidth innerHeight : K) (rnd : Nat → K) :
    ParticleSystem K :=
  createParticles
    (resize
      { width := canvasWidth, height := canvasHeight, particles := [],
        mouse := { x := 0, y := 0 }, maxParticles := 50, connectionDistance := 100 }
      innerWidth innerHeight)
    rnd

end Demo

/-- A stream of `Math.random` results in `[0, 1)`: `0, 0.1, ..., 0.9, 0, 0.1, ...`. -/
def demoRnd (k : Nat) : ℚ :=
  ((k % 10 : Nat) : ℚ) / 10

/-- A system on an 800 by 600 canvas with two particles, the second about to leave the
canvas on the right and at the bottom, the pointer at distance 5 from where it moves. -/
def demoSystem : ParticleSystem ℚ :=
  { width := 800
    height := 600
    particles := [{ x := 10, y := 20, vx := 1 / 4, vy := -1 / 4, size := 2 },
                  { x := 800, y := 600, vx := 1 / 8, vy := 1 / 8, size := 1 }]
    mouse := { x := 6425 / 8, y := 4833 / 8 }
    maxParticles := 50
    connectionDistance := 100 }

/-- Nearest integer to `t`, a tie going to the even neighbour. -/
def roundHalfEven (t : ℚ) : ℤ :=
  if t - ⌊t⌋ < 1 / 2 then ⌊t⌋
  else if 1 / 2 < t - ⌊t⌋ then ⌊t⌋ + 1
  else if ⌊t⌋ % 2 = 0 then ⌊t⌋ else ⌊t⌋ + 1

/-- The double nearest to the rational `q` (IEEE 754 binary64, round to nearest, ties to
even): `q` is scaled to a significand in `[2^52, 2^53)`, which is rounded to an integer.
The exponent is not bounded, so overflow to `Infinity` and subnormal results are not
modelled. -/
def roundDouble (q : ℚ) : ℚ :=
  if q = 0 then 0
  else (roundHalfEven (q / 2 ^ (Int.log 2 |q| - 52)) : ℚ) * 2 ^ (Int.log 2 |q| - 52)

/-- The rationals that are doubles: an integer significand of at most 53 bits times a power
of two. -/
def IsDouble (q : ℚ) : Prop :=
  ∃ m e : ℤ, |m| ≤ 2 ^ 53 ∧ q = m * 2 ^ e

/-- `Math.sqrt(v)` on a double `v ≥ 0`: the double nearest to the real square root.  With
`u` the spacing of the doubles around the root, `n u` is the largest multiple of `u` whose
square is at most `v`, and the result is `n u` or `(n + 1) u` by the side of the midpoint
on which the root lies. -/
def sqrtDouble (v : ℚ) : ℚ :=
  if v ≤ 0 then 0
  else
    let u : ℚ := 2 ^ (Int.log 2 v / 2 - 52)
    let t : ℚ := v / (u * u)
    let n : ℕ := Nat.sqrt ⌊t⌋₊
    if t < ((n : ℚ) + 1 / 2) ^ 2 then n * u
    else if ((n : ℚ) + 1 / 2) ^ 2 < t then (n + 1) * u
    else if n % 2 = 0 then n * u else (n + 1) * u

/-- JavaScript `a + b` on doubles. -/
def fadd (a b : ℚ) : ℚ :=
  roundDouble (a + b)

/-- JavaScript `a - b` on doubles. -/
def fsub (a b : ℚ) : ℚ :=
  roundDouble (a - b)

/-- JavaScript `a * b` on doubles. -/
def fmul (a b : ℚ) : ℚ :=
  roundDouble (a * b)

/-- JavaScript `a / b` on doubles. -/
def fdiv (a b : ℚ) : ℚ :=
  roundDouble (a / b)

/-- The `distance` computed by the "mouse interaction" block of `updateParticles` for a
particle at `(x, y)`, every operation rounded to a double. -/
def mouseDistanceDouble (mouse : Mouse ℚ) (x y : ℚ) : ℚ :=
  let dx := fsub mouse.x x
  let dy := fsub mouse.y y
  sqrtDouble (fadd (fmul dx dx) (fmul dy dy))

/-- The amounts `dx * force * 0.01` and `dy * force * 0.01` that the "mouse interaction"
block adds to the position of a particle at `(x, y)`, in double arithmetic; `(0, 0)` when
the block is skipped. -/
def nudgeDouble (mouse : Mouse ℚ) (x y : ℚ) : ℚ × ℚ :=
  let dx := fsub mouse.x x
  let dy := fsub mouse.y y
  let distance := sqrtDouble (fadd (fmul dx dx) (fmul dy dy))
  if distance < 100 then
    let force := fdiv (fsub 100 distance) 100
    (fmul (fmul dx force) (roundDouble 0.01), fmul (fmul dy force) (roundDouble 0.01))
  else (0, 0)

/-- Position of a particle after `x += vx; y += vy` and the mouse interaction, before the
edge test and the clamp, in double arithmetic. -/
def movedPosDouble (mouse : Mouse ℚ) (p : Particle ℚ) : ℚ × ℚ :=
  let x := fadd p.x p.vx
  let y := fadd p.y p.vy
  if mouseDistanceDouble mouse x y < 100 then
    (fadd x (nudgeDouble mouse x y).1, fadd y (nudgeDouble mouse x y).2)
  else (x, y)

/-- The value given to `ctx.globalAlpha` for a pair at distance `d`, in double arithmetic:
`(connectionDistance - distance) / connectionDistance`, then `opacity * 0.3`. -/
def lineAlphaDouble (c d : ℚ) : ℚ :=
  let opacity := fdiv (fsub c d) c
  fmul opacity (roundDouble 0.3)

/-- The `distance` computed for a pair in `drawParticles`, in double arithmetic. -/
def pairDistanceDouble (p q : Particle ℚ) : ℚ :=
  let dx := fsub p.x q.x
  let dy := fsub p.y q.y
  sqrtDouble (fadd (fmul dx dx) (fmul dy dy))

/-- The body of the inner loop of `drawParticles` for the pair `(i, j)`, in double
arithmetic: the segment stroked, if any. -/
def connectionDouble (c : ℚ) (ps : List (Particle ℚ)) (i j : Nat) : Option (Line ℚ) :=
  match ps[i]?, ps[j]? with
  | some p, some q =>
    let distance := pairDistanceDouble p q
    if distance < c then
      some { i := i, j := j, alpha := lineAlphaDouble c distance,
             x1 := p.x, y1 := p.y, x2 := q.x, y2 := q.y }
    else none
  | _, _ => none

/-- The connection pass of `drawParticles` in double arithmetic: all segments stroked, in
order. -/
def connectionsDouble (c : ℚ) (ps : List (Particle ℚ)) : List (Line ℚ) :=
  (pairLoop ps.length).filterMap fun ij => connectionDouble c ps ij.1 ij.2

/-- A pointer position at integer coordinates. -/
def absorbMouse : Mouse ℚ :=
  { x := 100, y := 300 }

/-- A particle at rest at `(200 - 2^-45, 300)`: `x` is the double just below 200. -/
def absorbParticle : Particle ℚ :=
  { x := 200 - 1 / 2 ^ 45, y := 300, vx := 0, vy := 0, size := 1 }

/-- A particle at the origin. -/
def nearA : Particle ℚ :=
  { x := 0, y := 0, vx := 0, vy := 0, size := 1 }

/-- A particle at `(96, 28 - 2^-48)`, at Euclidean distance just below 100 from the
origin; `y` is the double just below 28. -/
def nearB : Particle ℚ :=
  { x := 96, y := 28 - 1 / 2 ^ 48, vx := 0, vy := 0, size := 1 }

section Lemmas

variable {K : Type} [LinearOrderedField K]

theorem clamp_mem (w x : K) (hw : 0 ≤ w) : 0 ≤ max 0 (min w x) ∧ max 0 (min w x) ≤ w :=
  ⟨le_max_left _ _, max_le hw (min_le_left _ _)⟩

theorem updateParticle_inBounds (sqrt : K → K) (w h : K) (hw : 0 ≤ w) (hh : 0 ≤ h)
    (mouse : Mouse K) (p : Particle K) : InBounds w h (updateParticle sqrt w h mouse p) :=
  ⟨(clamp_mem w _ hw).1, (clamp_mem w _ hw).2, (clamp_mem h _ hh).1, (clamp_mem h _ hh).2⟩


theorem updateParticles_getElem? (sqrt : K → K) (s : ParticleSystem K) (i : Nat) :
    (updateParticles sqrt s).particles[i]? =
      (s.particles[i]?).map (updateParticle sqrt s.width s.height s.mouse) := by
  simp [updateParticles]

theorem updateParticles_inBounds (sqrt : K → K) (s : ParticleSystem K)
    (hw : 0 ≤ s.width) (hh : 0 ≤ s.height) :
    ∀ p ∈ (updateParticles sqrt s).particles, InBounds s.width s.height p := by
  intro p hp
  simp only [updateParticles, List.mem_map] at hp
  obtain ⟨q, -, rfl⟩ := hp
  exact updateParticle_inBounds sqrt _ _ hw hh _ q

theorem newParticle_inBounds (rnd : Nat → K) (w h : K) (hw : 0 ≤ w) (hh : 0 ≤ h)
    (hr : ∀ k, 0 ≤ rnd k ∧ rnd k < 1) (i : Nat) : InBounds w h (newParticle rnd w h i) := by
  refine ⟨?_, ?_, ?_, ?_⟩
  · exact mul_nonneg (hr _).1 hw
  · exact mul_le_of_le_one_left hw (hr _).2.le
  · exact mul_nonneg (hr _).1 hh
  · exact mul_le_of_le_one_left hh (hr _).2.le

theorem createLoop_length (rnd : Nat → K) (w h : K) (n : Nat) :
    (createLoop rnd w h n).length = n := by
  induction n with
  | zero => rfl
  | succ n ih => simp [createLoop, ih]

theorem createLoop_eq_map (rnd : Nat → K) (w h : K) (n : Nat) :
    createLoop rnd w h n = (List.range n).map (newParticle rnd w h) := by
  induction n with
  | zero => rfl
  | succ n ih => simp [createLoop, ih, List.range_succ]

theorem createLoop_inBounds (rnd : Nat → K) (w h : K) (hw : 0 ≤ w) (hh : 0 ≤ h)
    (hr : ∀ k, 0 ≤ rnd k ∧ rnd k < 1) (n : Nat) :
    ∀ p ∈ createLoop rnd w h n, InBounds w h p := by
  intro p hp
  rw [createLoop_eq_map, List.mem_map] at hp
  obtain ⟨i, -, rfl⟩ := hp
  exact newParticle_inBounds rnd w h hw hh hr i

theorem runTicks_size (sqrt : K → K) (ms : List (Mouse K)) (s : ParticleSystem K) :
    (runTicks sqrt s ms).width = s.width ∧ (runTicks sqrt s ms).height = s.height := by
  induction ms generalizing s with
  | nil => exact ⟨rfl, rfl⟩
  | cons m ms ih => exact ih _

theorem runTicks_inBounds (sqrt : K → K) (ms : List (Mouse K)) (s : ParticleSystem K)
    (hw : 0 ≤ s.width) (hh : 0 ≤ s.height)
    (hs : ∀ p ∈ s.particles, InBounds s.width s.height p) :
    ∀ p ∈ (runTicks sqrt s ms).particles, InBounds s.width s.height p := by
  induction ms generalizing s with
  | nil => exact hs
  | cons m ms ih =>
    exact ih (updateParticles sqrt (onMouseMove s m.x m.y)) hw hh
      (updateParticles_inBounds sqrt (onMouseMove s m.x m.y) hw hh)

theorem demoRnd_range (k : Nat) : 0 ≤ demoRnd k ∧ demoRnd k < 1 := by
  unfold demoRnd
  have h : k % 10 < 10 := Nat.mod_lt _ (by norm_num)
  have h' : ((k % 10 : Nat) : ℚ) < 10 := by exact_mod_cast h
  constructor
  · positivity
  · rw [div_lt_one (by norm_num)]
    exact h'

/-- C1: for a canvas of width and height at least 0, whatever the pointer position and the
particle set, every particle lies in `[0, width] × [0, height]` after one run of
`updateParticles`; and starting from `createParticles` (random values in `[0, 1)`), this
holds after any number of ticks, whatever the pointer positions before each tick. -/
theorem C1_positions_stay_on_canvas (sqrt : K → K) (s : ParticleSystem K)
    (hw : 0 ≤ s.width) (hh : 0 ≤ s.height) :
    (∀ p ∈ (updateParticles sqrt s).particles,
        0 ≤ p.x ∧ p.x ≤ s.width ∧ 0 ≤ p.y ∧ p.y ≤ s.height) ∧
    (∀ rnd : Nat → K, (∀ k, 0 ≤ rnd k ∧ rnd k < 1) → ∀ ms : List (Mouse K),
        ∀ p ∈ (runTicks sqrt (createParticles s rnd) ms).particles,
          0 ≤ p.x ∧ p.x ≤ s.width ∧ 0 ≤ p.y ∧ p.y ≤ s.height) := by
  refine ⟨updateParticles_inBounds sqrt s hw hh, ?_⟩
  intro rnd hr ms
  exact runTicks_inBounds sqrt ms (createParticles s rnd) hw hh
    (createLoop_inBounds rnd s.width s.height hw hh hr s.maxParticles)

/-- Witness of C1 on the 800 by 600 demo system, three ticks. -/
theorem C1_positions_stay_on_canvas_witness :
    (0 ≤ demoSystem.width ∧ 0 ≤ demoSystem.height) ∧
    (∀ p ∈ (updateParticles Rat.sqrt demoSystem).particles,
        0 ≤ p.x ∧ p.x ≤ demoSystem.width ∧ 0 ≤ p.y ∧ p.y ≤ demoSystem.height) ∧
    (∀ k, 0 ≤ demoRnd k ∧ demoRnd k < 1) ∧
    (∀ p ∈ (runTicks Rat.sqrt (createParticles demoSystem demoRnd)
          [{ x := 5, y := 5 }, { x := 700, y := 100 }, { x := -3, y := 900 }]).particles,
        0 ≤ p.x ∧ p.x ≤ demoSystem.width ∧ 0 ≤ p.y ∧ p.y ≤ demoSystem.height) :=
  have hw : (0 : ℚ) ≤ demoSystem.width := by norm_num [demoSystem]
  have hh : (0 : ℚ) ≤ demoSystem.height := by norm_num [demoSystem]
  ⟨⟨hw, hh⟩, (C1_positions_stay_on_canvas Rat.sqrt demoSystem hw hh).1, demoRnd_range,
    (C1_positions_stay_on_canvas Rat.sqrt demoSystem hw hh).2 demoRnd demoRnd_range _⟩

/-- C2: handling a resize to a surface of size `(w, h)` with `w, h ≥ 0`, with random
values in `[0, 1)`, leaves exactly `maxParticles` particles (50 for a system built by the
constructor), none of them taken from the previous set (particle `i` is the object built in
iteration `i`, whatever the old array was), each with `0 ≤ x ≤ w` and `0 ≤ y ≤ h`. -/
theorem C2_resize_regenerates (s : ParticleSystem K) (w h : K) (rnd : Nat → K)
    (hw : 0 ≤ w) (hh : 0 ≤ h) (hr : ∀ k, 0 ≤ rnd k ∧ rnd k < 1) :
    (onResize s w h rnd).width = w ∧ (onResize s w h rnd).height = h ∧
    (onResize s w h rnd).maxParticles = s.maxParticles ∧
    (onResize s w h rnd).particles.length = s.maxParticles ∧
    (∀ cw ch iw ih rnd0,
        (onResize (construct cw ch iw ih rnd0) w h rnd).particles.length = 50) ∧
    (onResize s w h rnd).particles = (List.range s.maxParticles).map (newParticle rnd w h) ∧
    (∀ old : List (Particle K),
        (onResize { s with particles := old } w h rnd).particles =
          (onResize s w h rnd).particles) ∧
    (∀ p ∈ (onResize s w h rnd).particles, 0 ≤ p.x ∧ p.x ≤ w ∧ 0 ≤ p.y ∧ p.y ≤ h) := by
  refine ⟨rfl, rfl, rfl, createLoop_length _ _ _ _, ?_, createLoop_eq_map _ _ _ _, ?_, ?_⟩
  · intro cw ch iw ih rnd0
    exact createLoop_length _ _ _ _
  · intro old
    rfl
  · exact createLoop_inBounds rnd w h hw hh hr s.maxParticles

/-- Witness of C2: the demo system resized to 1024 by 768. -/
theorem C2_resize_regenerates_witness :
    ((0 : ℚ) ≤ 1024 ∧ (0 : ℚ) ≤ 768 ∧ ∀ k, 0 ≤ demoRnd k ∧ demoRnd k < 1) ∧
    (onResize demoSystem 1024 768 demoRnd).particles.length = 50 ∧
    (∀ p ∈ (onResize demoSystem 1024 768 demoRnd).particles,
        0 ≤ p.x ∧ p.x ≤ 1024 ∧ 0 ≤ p.y ∧ p.y ≤ 768) :=
  have h := C2_resize_regenerates demoSystem 1024 768 demoRnd (by norm_num) (by norm_num)
    demoRnd_range
  ⟨⟨by norm_num, by norm_num, demoRnd_range⟩, h.2.2.2.1, h.2.2.2.2.2.2.2⟩

/-- C3: in one `updateParticles` step, for the particle at every index: if its `x` after
the velocity move and the pointer nudge is below 0 or above the canvas width, the new `vx`
is the negation of the old one, and if that `x` lies in `[0, width]` the new `vx` is the
old one; the same for `y`, the height and `vy`. -/
theorem C3_edge_reflection (sqrt : K → K) (s : ParticleSystem K) (i : Nat) (p : Particle K)
    (hp : s.particles[i]? = some p) :
    ∃ q, (updateParticles sqrt s).particles[i]? = some q ∧
      (((movedPos sqrt s.mouse p).1 < 0 ∨ s.width < (movedPos sqrt s.mouse p).1) →
        q.vx = -p.vx) ∧
      ((0 ≤ (movedPos sqrt s.mouse p).1 ∧ (movedPos sqrt s.mouse p).1 ≤ s.width) →
        q.vx = p.vx) ∧
      (((movedPos sqrt s.mouse p).2 < 0 ∨ s.height < (movedPos sqrt s.mouse p).2) →
        q.vy = -p.vy) ∧
      ((0 ≤ (movedPos sqrt s.mouse p).2 ∧ (movedPos sqrt s.mouse p).2 ≤ s.height) →
        q.vy = p.vy) := by
  refine ⟨updateParticle sqrt s.width s.height s.mouse p, ?_, ?_, ?_, ?_, ?_⟩
  · rw [updateParticles_getElem?, hp]
    rfl
  · intro h
    simp only [updateParticle, gt_iff_lt, if_pos h, mul_neg, mul_one]
  · intro h
    have h' : ¬((movedPos sqrt s.mouse p).1 < 0 ∨ s.width < (movedPos sqrt s.mouse p).1) := by
      rintro (h1 | h1)
      · exact absurd h.1 (not_le.mpr h1)
      · exact absurd h.2 (not_le.mpr h1)
    simp only [updateParticle, gt_iff_lt, if_neg h']
  · intro h
    simp only [updateParticle, gt_iff_lt, if_pos h, mul_neg, mul_one]
  · intro h
    have h' : ¬((movedPos sqrt s.mouse p).2 < 0 ∨ s.height < (movedPos sqrt s.mouse p).2) := by
      rintro (h1 | h1)
      · exact absurd h.1 (not_le.mpr h1)
      · exact absurd h.2 (not_le.mpr h1)
    simp only [updateParticle, gt_iff_lt, if_neg h']

theorem demo_movedPos :
    movedPos Rat.sqrt demoSystem.mouse
      { x := 800, y := 600, vx := 1 / 8, vy := 1 / 8, size := 1 } =
      (1600307 / 2000, 600163 / 1000) := by
  norm_num [movedPos, nudge, demoSystem, Rat.sqrt]

/-- Witness of C3: the second particle of the demo system ends its move right of the
canvas and below it, and both velocity components are negated. -/
theorem C3_edge_reflection_witness :
    demoSystem.particles[1]? =
      some ({ x := 800, y := 600, vx := 1 / 8, vy := 1 / 8, size := 1 } : Particle ℚ) ∧
    ∃ q, (updateParticles Rat.sqrt demoSystem).particles[1]? = some q ∧
      q.vx = -(1 / 8 : ℚ) ∧ q.vy = -(1 / 8 : ℚ) := by
  refine ⟨rfl, ?_⟩
  obtain ⟨q, hq, hx, -, hy, -⟩ := C3_edge_reflection Rat.sqrt demoSystem 1
    { x := 800, y := 600, vx := 1 / 8, vy := 1 / 8, size := 1 } rfl
  refine ⟨q, hq, hx ?_, hy ?_⟩
  · right
    rw [demo_movedPos]
    norm_num [demoSystem]
  · right
    rw [demo_movedPos]
    norm_num [demoSystem]

theorem updateParticle_frame (sqrt : K → K) (w h : K) (mouse : Mouse K) (p : Particle K) :
    (updateParticle sqrt w h mouse p).size = p.size ∧
    |(updateParticle sqrt w h mouse p).vx| = |p.vx| ∧
    |(updateParticle sqrt w h mouse p).vy| = |p.vy| := by
  refine ⟨rfl, ?_, ?_⟩
  · simp only [updateParticle]
    split_ifs <;> simp
  · simp only [updateParticle]
    split_ifs <;> simp

/-- C10: `updateParticles` keeps the number and the order of the particles (the particle at
index `i` afterwards is the update of the one at index `i` before), leaves every `size` as
it was, and leaves `|vx|` and `|vy|` as they were: each velocity component is kept or
negated.  The other fields of the system are not touched. -/
theorem C10_update_frame (sqrt : K → K) (s : ParticleSystem K) :
    (updateParticles sqrt s).particles.length = s.particles.length ∧
    (updateParticles sqrt s).width = s.width ∧
    (updateParticles sqrt s).height = s.height ∧
    (updateParticles sqrt s).mouse = s.mouse ∧
    (updateParticles sqrt s).maxParticles = s.maxParticles ∧
    (updateParticles sqrt s).connectionDistance = s.connectionDistance ∧
    (∀ i : Nat, (updateParticles sqrt s).particles[i]? = none ↔ s.particles[i]? = none) ∧
    (∀ (i : Nat) (p : Particle K), s.particles[i]? = some p →
      ∃ q, (updateParticles sqrt s).particles[i]? = some q ∧
        q = updateParticle sqrt s.width s.height s.mouse p ∧
        q.size = p.size ∧ |q.vx| = |p.vx| ∧ |q.vy| = |p.vy| ∧
        (q.vx = p.vx ∨ q.vx = -p.vx) ∧ (q.vy = p.vy ∨ q.vy = -p.vy)) := by
  refine ⟨by simp [updateParticles], rfl, rfl, rfl, rfl, rfl, ?_, ?_⟩
  · intro i
    rw [updateParticles_getElem?]
    simp
  · intro i p hp
    refine ⟨updateParticle sqrt s.width s.height s.mouse p, ?_, rfl, ?_⟩
    · rw [updateParticles_getElem?, hp]
      rfl
    · obtain ⟨h1, h2, h3⟩ := updateParticle_frame sqrt s.width s.height s.mouse p
      exact ⟨h1, h2, h3, (abs_eq_abs.mp h2), (abs_eq_abs.mp h3)⟩

/-- Witness of C10: the second particle of the demo system keeps its size 1 and the
absolute value 1/8 of both velocity components. -/
theorem C10_update_frame_witness :
    demoSystem.particles[1]? =
      some ({ x := 800, y := 600, vx := 1 / 8, vy := 1 / 8, size := 1 } : Particle ℚ) ∧
    ∃ q, (updateParticles Rat.sqrt demoSystem).particles[1]? = some q ∧
      q.size = 1 ∧ |q.vx| = |(1 / 8 : ℚ)| ∧ |q.vy| = |(1 / 8 : ℚ)| := by
  refine ⟨rfl, ?_⟩
  obtain ⟨q, hq, -, h1, h2, h3, -⟩ := (C10_update_frame Rat.sqrt demoSystem).2.2.2.2.2.2.2 1
    { x := 800, y := 600, vx := 1 / 8, vy := 1 / 8, size := 1 } rfl
  exact ⟨q, hq, h1, h2, h3⟩

theorem mem_pairLoop (n i j : Nat) : (i, j) ∈ pairLoop n ↔ i < j ∧ j < n := by
  simp only [pairLoop, List.mem_flatMap, List.mem_range, List.mem_map, List.mem_range',
    Prod.mk.injEq]
  constructor
  · rintro ⟨a, -, b, ⟨k, hk, rfl⟩, rfl, rfl⟩
    omega
  · rintro ⟨h1, h2⟩
    exact ⟨i, by omega, j, ⟨j - (i + 1), by omega, by omega⟩, rfl, rfl⟩

theorem pairLoop_nodup (n : Nat) : (pairLoop n).Nodup := by
  unfold pairLoop
  rw [List.nodup_flatMap]
  constructor
  · intro i _
    refine List.Nodup.map ?_ (List.nodup_range' _ _)
    intro a b h
    exact (Prod.mk.inj h).2
  · refine List.Pairwise.imp ?_ (List.nodup_range n)
    intro a b hab
    intro x hx1 hx2
    simp only [List.mem_map] at hx1 hx2
    obtain ⟨_, _, rfl⟩ := hx1
    obtain ⟨_, _, h⟩ := hx2
    exact hab (Prod.mk.inj h).1.symm

theorem pairLoop_three : pairLoop 3 = [(0, 1), (0, 2), (1, 2)] := by
  decide

theorem pairLoop_length_sum (n : Nat) :
    (pairLoop n).length = ∑ i ∈ Finset.range n, (n - 1 - i) := by
  unfold pairLoop
  rw [List.length_flatMap]
  have h : ∀ (f : Nat → Nat) (m : Nat),
      ((List.range m).map f).sum = ∑ i ∈ Finset.range m, f i := by
    intro f m
    induction m with
    | zero => rfl
    | succ m ih => simp [List.range_succ, Finset.sum_range_succ, ih]
  have hf : (List.map (fun i => ((List.range' (i + 1) (n - (i + 1))).map
      fun j => (i, j)).length) (List.range n)) =
      (List.range n).map (fun i => n - 1 - i) := by
    apply List.map_congr_left
    intro i _
    simp only [List.length_map, List.length_range']
    omega
  have hc : (List.map (List.length ∘ fun i => (List.range' (i + 1) (n - (i + 1))).map
      fun j => (i, j)) (List.range n)) =
      (List.range n).map (fun i => n - 1 - i) := hf
  rw [hc, h]

theorem pairLoop_length (n : Nat) : (pairLoop n).length = n * (n - 1) / 2 := by
  rw [pairLoop_length_sum, Finset.sum_range_reflect (fun i => i) n, Finset.sum_range_id]

theorem count_eq_one_of_nodup {α : Type} [BEq α] [LawfulBEq α] {l : List α} (hn : l.Nodup)
    {a : α} (h : a ∈ l) : l.count a = 1 := by
  induction l with
  | nil => cases h
  | cons x t ih =>
    rw [List.nodup_cons] at hn
    rw [List.count_cons]
    by_cases hx : x = a
    · subst hx
      simp [List.count_eq_zero.mpr hn.1]
    · have ht : a ∈ t := by
        rcases List.mem_cons.mp h with h1 | h1
        · exact absurd h1.symm hx
        · exact h1
      simp [ih hn.2 ht, hx]

theorem pairLoop_count (n a b : Nat) (ha : a < n) (hb : b < n) (hab : a ≠ b) :
    (pairLoop n).count (a, b) + (pairLoop n).count (b, a) = 1 := by
  rcases Nat.lt_or_gt_of_ne hab with h | h
  · have h1 : (pairLoop n).count (a, b) = 1 :=
      count_eq_one_of_nodup (pairLoop_nodup n) ((mem_pairLoop n a b).mpr ⟨h, hb⟩)
    have h2 : (pairLoop n).count (b, a) = 0 := by
      rw [List.count_eq_zero, mem_pairLoop]
      omega
    omega
  · have h1 : (pairLoop n).count (b, a) = 1 :=
      count_eq_one_of_nodup (pairLoop_nodup n) ((mem_pairLoop n b a).mpr ⟨h, ha⟩)
    have h2 : (pairLoop n).count (a, b) = 0 := by
      rw [List.count_eq_zero, mem_pairLoop]
      omega
    omega

/-- C11: for a particle list of length `n`, the pairs examined by the connection pass of
`drawParticles` are index pairs `(i, j)` with `i < j < n` (never a particle with itself),
no pair is examined twice, every unordered pair of distinct particles is examined exactly
once (in one of its two orders), and the number of pairs examined is `n (n - 1) / 2`, which
is 1225 for `n = 50`; the lines drawn are what the loop body yields on these pairs. -/
theorem C11_pairs_examined_once (n : Nat) :
    (∀ ij ∈ pairLoop n, ij.1 < ij.2 ∧ ij.2 < n ∧ ij.1 ≠ ij.2) ∧
    (pairLoop n).Nodup ∧
    (∀ a b, a < n → b < n → a ≠ b →
      (pairLoop n).count (a, b) + (pairLoop n).count (b, a) = 1) ∧
    (pairLoop n).length = n * (n - 1) / 2 ∧
    (pairLoop 50).length = 1225 ∧
    (∀ (K : Type) [LinearOrderedField K] (sqrt : K → K) (isDark : Bool)
      (s : ParticleSystem K), s.particles.length = n →
      (drawParticles sqrt isDark s).lines =
        (pairLoop n).filterMap
          fun ij => connection sqrt s.connectionDistance s.particles ij.1 ij.2) := by
  refine ⟨?_, pairLoop_nodup n, pairLoop_count n, pairLoop_length n, ?_, ?_⟩
  · rintro ⟨i, j⟩ h
    have := (mem_pairLoop n i j).mp h
    exact ⟨this.1, this.2, Nat.ne_of_lt this.1⟩
  · rw [pairLoop_length]
  · intro K _ sqrt isDark s hs
    rw [← hs]
    rfl

/-- Witness of C11 for four particles: the pair of particles 2 and 1 is examined once, as
`(1, 2)`, and six pairs are examined in all. -/
theorem C11_pairs_examined_once_witness :
    (2 < 4 ∧ 1 < 4 ∧ 2 ≠ 1) ∧
    (pairLoop 4).count (2, 1) + (pairLoop 4).count (1, 2) = 1 ∧
    (pairLoop 4).length = 6 :=
  ⟨by decide, (C11_pairs_examined_once 4).2.2.1 2 1 (by decide) (by decide) (by decide),
    (C11_pairs_examined_once 4).2.2.2.1⟩

end Lemmas

/-- C7 as stated fails: the dark-theme line colour does not have a lower alpha than the
light-theme one (0.1 against 0.08). -/
theorem C7_line_alpha_counterexample :
    ¬ ((lineColor true).a < (lineColor false).a) := by
  norm_num [lineColor]

/-- C7, amended: in the colour selection of `drawParticles` the dark theme has the strictly
higher alpha for the particle fill (0.6 against 0.4) and also the strictly higher alpha for
the connection lines (0.1 against 0.08); these are the colours the frame is drawn with. -/
theorem C7_theme_alphas {K : Type} [LinearOrderedField K] (sqrt : K → K)
    (s : ParticleSystem K) :
    (drawParticles sqrt true s).fillStyle.a = 0.6 ∧
    (drawParticles sqrt false s).fillStyle.a = 0.4 ∧
    (drawParticles sqrt true s).strokeStyle.a = 0.1 ∧
    (drawParticles sqrt false s).strokeStyle.a = 0.08 ∧
    (drawParticles sqrt false s).fillStyle.a < (drawParticles sqrt true s).fillStyle.a ∧
    (drawParticles sqrt false s).strokeStyle.a < (drawParticles sqrt true s).strokeStyle.a ∧
    (∀ isDark, (drawParticles sqrt isDark s).fillStyle = particleColor isDark ∧
      (drawParticles sqrt isDark s).strokeStyle = lineColor isDark) := by
  refine ⟨rfl, rfl, rfl, rfl, ?_, ?_, fun _ => ⟨rfl, rfl⟩⟩
  · norm_num [drawParticles, particleColor]
  · norm_num [drawParticles, lineColor]

theorem slug_hello_world : generateSlug asciiLower "Hello World" = "hello-world" := by
  decide

/-- C8, the code at `node create-post.js "Hello World"` with both writes succeeding: the
run ends with exit code 0 having written two files, `blog/hello-world.md` and
`blog/hello-world.html`; `blog/index.html` is not among the files written. -/
theorem C8_blog_index_not_written (isoMain isoFront : String) :
    (createPost asciiLower "/site" (some "Hello World") isoMain isoFront
      (fun _ => true)).exitCode = 0 ∧
    (createPost asciiLower "/site" (some "Hello World") isoMain isoFront
      (fun _ => true)).writes.map Prod.fst =
        ["/site/blog/hello-world.md", "/site/blog/hello-world.html"] ∧
    "/site/blog/index.html" ∉
      (createPost asciiLower "/site" (some "Hello World") isoMain isoFront
        (fun _ => true)).writes.map Prod.fst := by
  have hne : ¬ "Hello World" = "" := by decide
  have hw : (createPost asciiLower "/site" (some "Hello World") isoMain isoFront
      (fun _ => true)).writes.map Prod.fst =
        ["/site/blog/hello-world.md", "/site/blog/hello-world.html"] := by
    simp only [createPost, slug_hello_world, if_neg hne, if_true, List.map_cons,
      List.map_nil]
    decide
  refine ⟨?_, hw, ?_⟩
  · simp only [createPost, if_neg hne, if_true]
  · rw [hw]
    decide

/-- C9, the code with no saved theme on a system that prefers dark: whatever the page
looked like before, the start-up block puts the class `dark` on the document root.  With
the saved theme `dark` it does so too, and with no saved theme on a system that does not
prefer dark it removes the class. -/
theorem C9_initial_theme (rootDark darkIconHidden lightIconHidden prefersDark : Bool) :
    (initTheme { rootDark := rootDark, darkIconHidden := darkIconHidden,
                 lightIconHidden := lightIconHidden, saved := none } true).rootDark = true ∧
    (initTheme { rootDark := rootDark, darkIconHidden := darkIconHidden,
                 lightIconHidden := lightIconHidden, saved := none } false).rootDark = false ∧
    (initTheme { rootDark := rootDark, darkIconHidden := darkIconHidden,
                 lightIconHidden := lightIconHidden, saved := some "dark" }
      prefersDark).rootDark = true := by
  refine ⟨?_, ?_, ?_⟩
  · simp [initTheme, truthy]
  · simp [initTheme, truthy]
  · simp [initTheme]

theorem isSlugChar_hyphen : isSlugChar '-' = false := by
  decide

theorem replaceRuns_chars (b : Bool) (cs : List Char) :
    ∀ c ∈ replaceRuns b cs, isSlugChar c = true ∨ c = '-' := by
  induction cs generalizing b with
  | nil => simp [replaceRuns]
  | cons x xs ih =>
    intro c hc
    simp only [replaceRuns] at hc
    split_ifs at hc with h1 h2
    · rcases List.mem_cons.mp hc with h | h
      · exact Or.inl (h ▸ h1)
      · exact ih false c h
    · exact ih true c hc
    · rcases List.mem_cons.mp hc with h | h
      · exact Or.inr h
      · exact ih true c h

theorem replaceRuns_head (cs : List Char) : (replaceRuns true cs).head? ≠ some '-' := by
  induction cs with
  | nil => simp [replaceRuns]
  | cons x xs ih =>
    simp only [replaceRuns]
    split_ifs with h1
    · intro h
      simp only [List.head?_cons, Option.some.injEq] at h
      rw [h, isSlugChar_hyphen] at h1
      exact absurd h1 (by simp)
    · exact ih

theorem replaceRuns_chain (b : Bool) (cs : List Char) :
    List.Chain' (fun a b : Char => ¬ (a = '-' ∧ b = '-')) (replaceRuns b cs) := by
  induction cs generalizing b with
  | nil => simp [replaceRuns]
  | cons x xs ih =>
    simp only [replaceRuns]
    split_ifs with h1 h2
    · rw [List.chain'_cons']
      refine ⟨?_, ih false⟩
      intro y _ h
      rw [h.1, isSlugChar_hyphen] at h1
      exact absurd h1 (by simp)
    · exact ih true
    · rw [List.chain'_cons']
      refine ⟨?_, ih true⟩
      intro y hy h
      have := replaceRuns_head xs
      rw [Option.mem_def.mp hy, h.2] at this
      exact this rfl

theorem stripLeading_eq (l : List Char) (h : l.head? ≠ some '-') : stripLeading l = l := by
  unfold stripLeading
  split
  · simp at h
  · rfl

theorem stripLeading_shape (l : List Char)
    (hc : List.Chain' (fun a b : Char => ¬ (a = '-' ∧ b = '-')) l) :
    (stripLeading l).head? ≠ some '-' ∧ stripLeading l <:+ l := by
  by_cases h : l.head? = some '-'
  · cases l with
    | nil => simp at h
    | cons x xs =>
      simp only [List.head?_cons, Option.some.injEq] at h
      subst h
      refine ⟨?_, ?_⟩
      · show xs.head? ≠ some '-'
        intro hx
        exact (List.chain'_cons'.mp hc).1 '-' (Option.mem_def.mpr hx) ⟨rfl, rfl⟩
      · exact List.suffix_cons _ _
  · rw [stripLeading_eq l h]
    exact ⟨h, List.suffix_refl l⟩

theorem stripTrailing_eq (l : List Char) (h : l.getLast? ≠ some '-') : stripTrailing l = l := by
  simp [stripTrailing, h]

theorem stripTrailing_shape (l : List Char)
    (hc : List.Chain' (fun a b : Char => ¬ (a = '-' ∧ b = '-')) l)
    (hh : l.head? ≠ some '-') :
    (stripTrailing l).head? ≠ some '-' ∧ (stripTrailing l).getLast? ≠ some '-' ∧
      stripTrailing l <+: l := by
  by_cases h : l.getLast? = some '-'
  · have hs : stripTrailing l = l.dropLast := by simp [stripTrailing, h]
    rw [hs]
    rcases List.eq_nil_or_concat l with hn | ⟨l', a, hl⟩
    · simp [hn] at h
    · rw [List.concat_eq_append] at hl
      subst hl
      have ha : a = '-' := by simpa using h
      subst ha
      simp only [List.dropLast_concat]
      refine ⟨?_, ?_, List.prefix_append _ _⟩
      · intro hx
        cases l' with
        | nil => simp at hx
        | cons y ys =>
          simp only [List.cons_append, List.head?_cons, ne_eq, not_true_eq_false] at hh hx
          exact hh hx
      · intro hx
        have := (List.chain'_append.mp hc).2.2 '-' (Option.mem_def.mpr hx) '-'
          (by simp)
        exact this ⟨rfl, rfl⟩
  · rw [stripTrailing_eq l h]
    exact ⟨hh, h, List.prefix_refl l⟩

theorem replaceRuns_fix (b : Bool) (l : List Char)
    (hchars : ∀ c ∈ l, isSlugChar c = true ∨ c = '-')
    (hc : List.Chain' (fun a b : Char => ¬ (a = '-' ∧ b = '-')) l)
    (hb : b = true → l.head? ≠ some '-') : replaceRuns b l = l := by
  induction l generalizing b with
  | nil => rfl
  | cons x xs ih =>
    have hxs : ∀ c ∈ xs, isSlugChar c = true ∨ c = '-' :=
      fun c h => hchars c (List.mem_cons_of_mem _ h)
    have hcx := List.chain'_cons'.mp hc
    simp only [replaceRuns]
    by_cases h1 : isSlugChar x = true
    · rw [if_pos h1, ih false hxs hcx.2 (by simp)]
    · have hx : x = '-' := (hchars x (List.mem_cons_self _ _)).resolve_left h1
      subst hx
      have hbf : b = false := by
        cases b with
        | false => rfl
        | true => exact absurd rfl (hb rfl)
      subst hbf
      rw [if_neg h1]
      simp only [Bool.false_eq_true, if_false]
      rw [ih true hxs hcx.2]
      intro _ hx
      exact hcx.1 '-' (Option.mem_def.mpr hx) ⟨rfl, rfl⟩

theorem toLower_slugChar (c : Char) (h : isSlugChar c = true ∨ c = '-') : c.toLower = c := by
  have hn : ¬ (c.toNat ≥ 65 ∧ c.toNat ≤ 90) := by
    rcases h with h | h
    · simp only [isSlugChar, Bool.or_eq_true, Bool.and_eq_true, decide_eq_true_eq] at h
      have e1 : ∀ a b : Char, a ≤ b ↔ a.toNat ≤ b.toNat := fun a b => Iff.rfl
      simp only [e1] at h
      have h1 : 'a'.toNat = 97 := rfl
      have h2 : 'z'.toNat = 122 := rfl
      have h3 : '0'.toNat = 48 := rfl
      have h4 : '9'.toNat = 57 := rfl
      rw [h1, h2, h3, h4] at h
      omega
    · subst h
      decide
  unfold Char.toLower
  simp only [hn, if_false]

theorem asciiLower_fix (s : String) (h : ∀ c ∈ s.data, isSlugChar c = true ∨ c = '-') :
    asciiLower s = s := by
  unfold asciiLower
  have : s.data.map Char.toLower = s.data := by
    conv_rhs => rw [← List.map_id s.data]
    apply List.map_congr_left
    intro c hc
    exact toLower_slugChar c (h c hc)
  rw [this]

theorem isSlugChar_iff (c : Char) :
    isSlugChar c = true ↔ ('a' ≤ c ∧ c ≤ 'z') ∨ ('0' ≤ c ∧ c ≤ '9') := by
  simp only [isSlugChar, Bool.or_eq_true, Bool.and_eq_true, decide_eq_true_eq]

theorem slugChars_iff (c : Char) :
    (isSlugChar c = true ∨ c = '-') ↔
      (('a' ≤ c ∧ c ≤ 'z') ∨ ('0' ≤ c ∧ c ≤ '9') ∨ c = '-') := by
  rw [isSlugChar_iff, or_assoc]

/-- The shape of the character list that `generateSlug` wraps into a string. -/
theorem slug_shape (cs : List Char) :
    (∀ c ∈ stripTrailing (stripLeading (replaceRuns false cs)),
      isSlugChar c = true ∨ c = '-') ∧
    (stripTrailing (stripLeading (replaceRuns false cs))).head? ≠ some '-' ∧
    (stripTrailing (stripLeading (replaceRuns false cs))).getLast? ≠ some '-' ∧
    List.Chain' (fun a b : Char => ¬ (a = '-' ∧ b = '-'))
      (stripTrailing (stripLeading (replaceRuns false cs))) := by
  have h0 := replaceRuns_chars false cs
  have c0 := replaceRuns_chain false cs
  obtain ⟨hh1, hs1⟩ := stripLeading_shape _ c0
  have c1 := c0.suffix hs1
  obtain ⟨hh2, hl2, hp2⟩ := stripTrailing_shape _ c1 hh1
  refine ⟨?_, hh2, hl2, c1.prefix hp2⟩
  intro c hc
  exact h0 c (hs1.subset (hp2.subset hc))

/-- C12: for every title, and whatever `toLowerCase` does, `generateSlug(title)` has only
characters from `a-z`, `0-9` and `-`, does not begin with `-`, does not end with `-`, and
has no two adjacent `-`; and when `toLowerCase` leaves strings over these characters as
they are (as `String.prototype.toLowerCase` does), `generateSlug` is idempotent. -/
theorem C12_slug_shape_idempotent (toLowerCase : String → String) (title : String) :
    (∀ c ∈ (generateSlug toLowerCase title).data,
      ('a' ≤ c ∧ c ≤ 'z') ∨ ('0' ≤ c ∧ c ≤ '9') ∨ c = '-') ∧
    (generateSlug toLowerCase title).data.head? ≠ some '-' ∧
    (generateSlug toLowerCase title).data.getLast? ≠ some '-' ∧
    List.Chain' (fun a b : Char => ¬ (a = '-' ∧ b = '-'))
      (generateSlug toLowerCase title).data ∧
    ((∀ s : String,
        (∀ c ∈ s.data, ('a' ≤ c ∧ c ≤ 'z') ∨ ('0' ≤ c ∧ c ≤ '9') ∨ c = '-') →
        toLowerCase s = s) →
      generateSlug toLowerCase (generateSlug toLowerCase title) =
        generateSlug toLowerCase title) := by
  obtain ⟨h1, h2, h3, h4⟩ := slug_shape (toLowerCase title).data
  refine ⟨fun c hc => (slugChars_iff c).mp (h1 c hc), h2, h3, h4, ?_⟩
  intro hlow
  have hfix : toLowerCase (generateSlug toLowerCase title) = generateSlug toLowerCase title :=
    hlow _ (fun c hc => (slugChars_iff c).mp (h1 c hc))
  show String.mk (stripTrailing (stripLeading (replaceRuns false
    (toLowerCase (generateSlug toLowerCase title)).data))) = generateSlug toLowerCase title
  rw [hfix]
  have hr : replaceRuns false (generateSlug toLowerCase title).data =
      (generateSlug toLowerCase title).data := replaceRuns_fix false _ h1 h4 (by simp)
  rw [hr]
  have hd : (generateSlug toLowerCase title).data =
      stripTrailing (stripLeading (replaceRuns false (toLowerCase title).data)) := rfl
  rw [hd, stripLeading_eq _ h2, stripTrailing_eq _ h3]
  rfl

/-- Witness of C12 with ASCII lower-casing on the title `Hello World`. -/
theorem C12_slug_shape_idempotent_witness :
    (∀ s : String,
        (∀ c ∈ s.data, ('a' ≤ c ∧ c ≤ 'z') ∨ ('0' ≤ c ∧ c ≤ '9') ∨ c = '-') →
        asciiLower s = s) ∧
    generateSlug asciiLower (generateSlug asciiLower "Hello World") =
      generateSlug asciiLower "Hello World" :=
  have h : ∀ s : String,
      (∀ c ∈ s.data, ('a' ≤ c ∧ c ≤ 'z') ∨ ('0' ≤ c ∧ c ≤ '9') ∨ c = '-') →
      asciiLower s = s :=
    fun s hs => asciiLower_fix s (fun c hc => (slugChars_iff c).mpr (hs c hc))
  ⟨h, (C12_slug_shape_idempotent asciiLower "Hello World").2.2.2.2 h⟩

theorem roundHalfEven_cases (t : ℚ) :
    (roundHalfEven t = ⌊t⌋ ∧ t - ⌊t⌋ ≤ 1 / 2) ∨
      (roundHalfEven t = ⌊t⌋ + 1 ∧ 1 / 2 ≤ t - ⌊t⌋) := by
  unfold roundHalfEven
  split_ifs with h1 h2 h3
  · exact Or.inl ⟨rfl, h1.le⟩
  · exact Or.inr ⟨rfl, h2.le⟩
  · exact Or.inl ⟨rfl, not_lt.mp h2⟩
  · exact Or.inr ⟨rfl, not_lt.mp h1⟩

theorem roundHalfEven_nearest (t : ℚ) (z : ℤ) :
    |(roundHalfEven t : ℚ) - t| ≤ |(z : ℚ) - t| := by
  have hf1 : (⌊t⌋ : ℚ) ≤ t := Int.floor_le t
  have hf2 : t < ⌊t⌋ + 1 := Int.lt_floor_add_one t
  have hz : z ≤ ⌊t⌋ ∨ ⌊t⌋ + 1 ≤ z := by omega
  have hz' : (z : ℚ) ≤ ⌊t⌋ ∨ ((⌊t⌋ : ℚ) + 1 ≤ z) := by
    rcases hz with h | h
    · exact Or.inl (by exact_mod_cast h)
    · exact Or.inr (by exact_mod_cast h)
  rcases roundHalfEven_cases t with ⟨hm, hr⟩ | ⟨hm, hr⟩
  · rw [hm, abs_sub_comm, abs_of_nonneg (by linarith)]
    rcases hz' with h | h
    · rw [abs_sub_comm, abs_of_nonneg (by linarith)]
      linarith
    · rw [abs_of_nonneg (by linarith)]
      linarith
  · rw [hm]
    push_cast
    rw [abs_of_nonneg (by linarith)]
    rcases hz' with h | h
    · rw [abs_sub_comm, abs_of_nonneg (by linarith)]
      linarith
    · rw [abs_of_nonneg (by linarith)]
      linarith

theorem roundHalfEven_eval (t : ℚ) (m : ℤ) (h1 : (m : ℚ) - 1 / 2 < t) (h2 : t < m + 1 / 2) :
    roundHalfEven t = m := by
  have hn := roundHalfEven_nearest t m
  have hlt : |(m : ℚ) - t| < 1 / 2 := by
    rw [abs_lt]
    constructor <;> linarith
  have h3 : |(roundHalfEven t : ℚ) - t| < 1 / 2 := lt_of_le_of_lt hn hlt
  have h4 : |(roundHalfEven t : ℚ) - m| < 1 := by
    calc |(roundHalfEven t : ℚ) - m| ≤ |(roundHalfEven t : ℚ) - t| + |t - m| := abs_sub_le _ _ _
      _ < 1 / 2 + 1 / 2 := by
          rw [abs_sub_comm t]
          exact add_lt_add h3 hlt
      _ = 1 := by norm_num
  have h5 : |roundHalfEven t - m| < 1 := by exact_mod_cast h4
  have := Int.abs_lt_one_iff.mp h5
  omega

theorem roundHalfEven_half (t : ℚ) : |(roundHalfEven t : ℚ) - t| ≤ 1 / 2 := by
  have hf1 : (⌊t⌋ : ℚ) ≤ t := Int.floor_le t
  have hf2 : t < ⌊t⌋ + 1 := Int.lt_floor_add_one t
  rcases roundHalfEven_cases t with ⟨hm, hr⟩ | ⟨hm, hr⟩
  · rw [hm, abs_sub_comm, abs_of_nonneg (by linarith)]
    exact hr
  · rw [hm]
    push_cast
    rw [abs_of_nonneg (by linarith)]
    linarith

theorem two_zpow_pos (e : ℤ) : (0 : ℚ) < 2 ^ e :=
  zpow_pos (by norm_num) e

theorem binade_bounds (q : ℚ) (hq : q ≠ 0) :
    (2 : ℚ) ^ Int.log 2 |q| ≤ |q| ∧ |q| < 2 ^ (Int.log 2 |q| + 1) := by
  have hpos : 0 < |q| := abs_pos.mpr hq
  have h1 := Int.zpow_log_le_self (b := 2) (r := |q|) (by norm_num) hpos
  have h2 := Int.lt_zpow_succ_log_self (b := 2) (by norm_num) |q|
  simp only [Nat.cast_ofNat] at h1 h2
  exact ⟨h1, h2⟩

theorem log_eq_of_bounds (q : ℚ) (k : ℤ) (h1 : (2 : ℚ) ^ k ≤ q) (h2 : q < 2 ^ (k + 1)) :
    Int.log 2 q = k := by
  have hpos : 0 < q := lt_of_lt_of_le (two_zpow_pos k) h1
  have ha : k ≤ Int.log 2 q := by
    rw [← Int.zpow_le_iff_le_log (by norm_num) hpos]
    simpa using h1
  have hb : Int.log 2 q < k + 1 := by
    rw [← Int.lt_zpow_iff_log_lt (by norm_num) hpos]
    simpa using h2
  omega

theorem scaled_bounds (q : ℚ) (hq : q ≠ 0) :
    (2 : ℚ) ^ (52 : ℕ) ≤ |q / 2 ^ (Int.log 2 |q| - 52)| ∧
      |q / 2 ^ (Int.log 2 |q| - 52)| < 2 ^ (53 : ℕ) := by
  obtain ⟨h1, h2⟩ := binade_bounds q hq
  have he := two_zpow_pos (Int.log 2 |q| - 52)
  rw [abs_div, abs_of_pos he, le_div_iff₀ he, div_lt_iff₀ he]
  have e1 : (2 : ℚ) ^ (52 : ℕ) * 2 ^ (Int.log 2 |q| - 52) = 2 ^ Int.log 2 |q| := by
    rw [← zpow_natCast, ← zpow_add₀ (by norm_num)]
    congr 1
    omega
  have e2 : (2 : ℚ) ^ (53 : ℕ) * 2 ^ (Int.log 2 |q| - 52) = 2 ^ (Int.log 2 |q| + 1) := by
    rw [← zpow_natCast, ← zpow_add₀ (by norm_num)]
    congr 1
    omega
  rw [e1, e2]
  exact ⟨h1, h2⟩

theorem roundDouble_zero : roundDouble 0 = 0 := by
  simp [roundDouble]

theorem roundDouble_isDouble (q : ℚ) : IsDouble (roundDouble q) := by
  by_cases hq : q = 0
  · rw [hq, roundDouble_zero]
    exact ⟨0, 0, by norm_num, by norm_num⟩
  · simp only [roundDouble, if_neg hq]
    refine ⟨roundHalfEven (q / 2 ^ (Int.log 2 |q| - 52)), Int.log 2 |q| - 52, ?_, rfl⟩
    obtain ⟨-, h2⟩ := scaled_bounds q hq
    have h3 := roundHalfEven_half (q / 2 ^ (Int.log 2 |q| - 52))
    have h4 : |(roundHalfEven (q / 2 ^ (Int.log 2 |q| - 52)) : ℚ)| < 2 ^ (53 : ℕ) + 1 := by
      have := abs_sub_abs_le_abs_sub
        (roundHalfEven (q / 2 ^ (Int.log 2 |q| - 52)) : ℚ) (q / 2 ^ (Int.log 2 |q| - 52))
      linarith
    have h5 : |roundHalfEven (q / 2 ^ (Int.log 2 |q| - 52))| < 2 ^ 53 + 1 := by
      exact_mod_cast h4
    omega

theorem roundDouble_nearest (q r : ℚ) (hr : IsDouble r) :
    |roundDouble q - q| ≤ |r - q| := by
  by_cases hq : q = 0
  · rw [hq, roundDouble_zero]
    simp
  obtain ⟨m', e', hm', rfl⟩ := hr
  simp only [roundDouble, if_neg hq]
  obtain ⟨hlo, hhi⟩ := scaled_bounds q hq
  have hu := two_zpow_pos (Int.log 2 |q| - 52)
  generalize Int.log 2 |q| - 52 = e at hlo hhi hu ⊢
  set u : ℚ := 2 ^ e with hu_def
  set t : ℚ := q / u with ht_def
  have hq_eq : q = t * u := by
    rw [ht_def, div_mul_cancel₀ _ (ne_of_gt hu)]
  have key : |(roundHalfEven t : ℚ) - t| ≤ |(m' : ℚ) * 2 ^ e' / u - t| := by
    rcases le_or_lt e e' with hee | hee
    · have hz : ((m' * 2 ^ (e' - e).toNat : ℤ) : ℚ) = (m' : ℚ) * 2 ^ e' / u := by
        push_cast
        rw [hu_def, mul_div_assoc, ← zpow_sub₀ (by norm_num), ← zpow_natCast]
        congr 2
        omega
      rw [← hz]
      exact roundHalfEven_nearest t _
    · have hsmall : |(m' : ℚ) * 2 ^ e' / u| ≤ 2 ^ (52 : ℕ) := by
        rw [hu_def, mul_div_assoc, ← zpow_sub₀ (by norm_num), abs_mul,
          abs_of_pos (two_zpow_pos _)]
        have h1 : (2 : ℚ) ^ (e' - e) ≤ 2 ^ (-1 : ℤ) :=
          zpow_le_zpow_right₀ (by norm_num) (by omega)
        have h2 : |(m' : ℚ)| ≤ 2 ^ (53 : ℕ) := by exact_mod_cast hm'
        calc |(m' : ℚ)| * 2 ^ (e' - e) ≤ 2 ^ (53 : ℕ) * 2 ^ (-1 : ℤ) :=
              mul_le_mul h2 h1 (two_zpow_pos _).le (by norm_num)
          _ = 2 ^ (52 : ℕ) := by norm_num
      obtain ⟨hs1, hs2⟩ := abs_le.mp hsmall
      rcases le_or_lt 0 t with ht | ht
      · rw [abs_of_nonneg ht] at hlo
        have hn := roundHalfEven_nearest t ((2 : ℤ) ^ 52)
        push_cast at hn
        refine le_trans hn ?_
        rw [abs_sub_comm, abs_of_nonneg (by linarith), abs_sub_comm,
          abs_of_nonneg (by linarith)]
        linarith
      · rw [abs_of_neg ht] at hlo
        have hn := roundHalfEven_nearest t (-(2 : ℤ) ^ 52)
        push_cast at hn
        refine le_trans hn ?_
        rw [abs_of_nonneg (by linarith), abs_of_nonneg (by linarith)]
        linarith
  have e1 : (roundHalfEven t : ℚ) * u - q = ((roundHalfEven t : ℚ) - t) * u := by
    rw [sub_mul, ← hq_eq]
  have e2 : (m' : ℚ) * 2 ^ e' - q = ((m' : ℚ) * 2 ^ e' / u - t) * u := by
    rw [sub_mul, ← hq_eq, div_mul_cancel₀ _ (ne_of_gt hu)]
  rw [e1, e2, abs_mul, abs_mul, abs_of_pos hu]
  exact mul_le_mul_of_nonneg_right key hu.le

theorem roundDouble_of_isDouble (r : ℚ) (hr : IsDouble r) : roundDouble r = r := by
  have h := roundDouble_nearest r r hr
  rw [sub_self, abs_zero] at h
  exact sub_eq_zero.mp (abs_eq_zero.mp (le_antisymm h (abs_nonneg _)))

theorem roundDouble_mono {a b : ℚ} (h : a ≤ b) : roundDouble a ≤ roundDouble b := by
  by_contra hc
  have hlt : roundDouble b < roundDouble a := not_le.mp hc
  have h1 := roundDouble_nearest a (roundDouble b) (roundDouble_isDouble b)
  have h2 := roundDouble_nearest b (roundDouble a) (roundDouble_isDouble a)
  have s1 := sq_le_sq.mpr h1
  have s2 := sq_le_sq.mpr h2
  have hab : a = b := by nlinarith
  rw [hab] at hlt
  exact lt_irrefl _ hlt

theorem roundDouble_nonneg {q : ℚ} (h : 0 ≤ q) : 0 ≤ roundDouble q := by
  have := roundDouble_mono h
  rwa [roundDouble_zero] at this

theorem roundDouble_nonpos {q : ℚ} (h : q ≤ 0) : roundDouble q ≤ 0 := by
  have := roundDouble_mono h
  rwa [roundDouble_zero] at this

theorem roundDouble_ne_zero {q : ℚ} (hq : q ≠ 0) : roundDouble q ≠ 0 := by
  simp only [roundDouble, if_neg hq]
  obtain ⟨hlo, -⟩ := scaled_bounds q hq
  have hh := roundHalfEven_half (q / 2 ^ (Int.log 2 |q| - 52))
  have hm : (roundHalfEven (q / 2 ^ (Int.log 2 |q| - 52)) : ℚ) ≠ 0 := by
    intro h0
    rw [h0, zero_sub, abs_neg] at hh
    have : (2 : ℚ) ^ (52 : ℕ) ≤ 1 / 2 := le_trans hlo hh
    norm_num at this
  exact mul_ne_zero hm (ne_of_gt (two_zpow_pos _))

theorem roundDouble_pos {q : ℚ} (h : 0 < q) : 0 < roundDouble q :=
  lt_of_le_of_ne (roundDouble_nonneg h.le) (Ne.symm (roundDouble_ne_zero (ne_of_gt h)))

theorem roundDouble_neg_of_neg {q : ℚ} (h : q < 0) : roundDouble q < 0 :=
  lt_of_le_of_ne (roundDouble_nonpos h.le) (roundDouble_ne_zero (ne_of_lt h))

theorem isDouble_zero : IsDouble 0 :=
  ⟨0, 0, by norm_num, by norm_num⟩

theorem isDouble_int (n : ℤ) (h : |n| ≤ 2 ^ 53) : IsDouble n :=
  ⟨n, 0, h, by simp⟩

theorem isDouble_mul_zpow {r : ℚ} (hr : IsDouble r) (j : ℤ) : IsDouble (r * 2 ^ j) := by
  obtain ⟨m, e, hm, rfl⟩ := hr
  exact ⟨m, e + j, hm, by rw [zpow_add₀ (by norm_num), mul_assoc]⟩

theorem isDouble_neg {r : ℚ} (hr : IsDouble r) : IsDouble (-r) := by
  obtain ⟨m, e, hm, rfl⟩ := hr
  exact ⟨-m, e, by simpa using hm, by push_cast; ring⟩

theorem roundDouble_eval_pos (q : ℚ) (k m : ℤ) (hlo : (2 : ℚ) ^ k ≤ q)
    (hhi : q < 2 ^ (k + 1)) (h1 : (m : ℚ) - 1 / 2 < q / 2 ^ (k - 52))
    (h2 : q / 2 ^ (k - 52) < m + 1 / 2) : roundDouble q = m * 2 ^ (k - 52) := by
  have hpos : 0 < q := lt_of_lt_of_le (two_zpow_pos k) hlo
  have hlog : Int.log 2 |q| = k := by
    rw [abs_of_pos hpos]
    exact log_eq_of_bounds q k hlo hhi
  simp only [roundDouble, if_neg (ne_of_gt hpos), hlog]
  rw [roundHalfEven_eval _ m h1 h2]

theorem roundDouble_eval_neg (q : ℚ) (k m : ℤ) (hlo : q ≤ -(2 : ℚ) ^ k)
    (hhi : -(2 : ℚ) ^ (k + 1) < q) (h1 : (m : ℚ) - 1 / 2 < q / 2 ^ (k - 52))
    (h2 : q / 2 ^ (k - 52) < m + 1 / 2) : roundDouble q = m * 2 ^ (k - 52) := by
  have hneg : q < 0 := lt_of_le_of_lt hlo (neg_lt_zero.mpr (two_zpow_pos k))
  have hlog : Int.log 2 |q| = k := by
    rw [abs_of_neg hneg]
    exact log_eq_of_bounds (-q) k (by linarith) (by linarith)
  simp only [roundDouble, if_neg (ne_of_lt hneg), hlog]
  rw [roundHalfEven_eval _ m h1 h2]

theorem sqrtDouble_nonneg (v : ℚ) : 0 ≤ sqrtDouble v := by
  unfold sqrtDouble
  split_ifs <;> positivity

theorem sqrtDouble_zero : sqrtDouble 0 = 0 := by
  simp [sqrtDouble]

theorem natSqrt_floor (t : ℚ) (n : ℕ) (h1 : (n : ℚ) ^ 2 ≤ t) (h2 : t < ((n : ℚ) + 1) ^ 2) :
    Nat.sqrt ⌊t⌋₊ = n := by
  have ht : 0 ≤ t := le_trans (by positivity) h1
  symm
  rw [Nat.eq_sqrt]
  constructor
  · rw [Nat.le_floor_iff ht]
    push_cast
    rw [← sq]
    exact h1
  · rw [Nat.floor_lt ht]
    push_cast
    rw [← sq]
    exact h2

theorem sqrtDouble_eval_down (v : ℚ) (k h : ℤ) (n : ℕ) (hlo : (2 : ℚ) ^ k ≤ v)
    (hhi : v < 2 ^ (k + 1)) (hh : k / 2 = h)
    (h1 : (n : ℚ) ^ 2 ≤ v / (2 ^ (h - 52) * 2 ^ (h - 52)))
    (h2 : v / (2 ^ (h - 52) * 2 ^ (h - 52)) < ((n : ℚ) + 1 / 2) ^ 2) :
    sqrtDouble v = n * 2 ^ (h - 52) := by
  have hpos : 0 < v := lt_of_lt_of_le (two_zpow_pos k) hlo
  have hlog : Int.log 2 v = k := log_eq_of_bounds v k hlo hhi
  have hn : Nat.sqrt ⌊v / (2 ^ (h - 52) * 2 ^ (h - 52))⌋₊ = n := by
    apply natSqrt_floor _ _ h1
    refine lt_trans h2 ?_
    have : (0 : ℚ) ≤ n := Nat.cast_nonneg n
    nlinarith
  simp only [sqrtDouble, if_neg (not_le.mpr hpos), hlog, hh, hn, if_pos h2]

theorem sqrtDouble_eval_up (v : ℚ) (k h : ℤ) (n : ℕ) (hlo : (2 : ℚ) ^ k ≤ v)
    (hhi : v < 2 ^ (k + 1)) (hh : k / 2 = h)
    (h1 : ((n : ℚ) + 1 / 2) ^ 2 < v / (2 ^ (h - 52) * 2 ^ (h - 52)))
    (h2 : v / (2 ^ (h - 52) * 2 ^ (h - 52)) < ((n : ℚ) + 1) ^ 2) :
    sqrtDouble v = (n + 1) * 2 ^ (h - 52) := by
  have hpos : 0 < v := lt_of_lt_of_le (two_zpow_pos k) hlo
  have hlog : Int.log 2 v = k := log_eq_of_bounds v k hlo hhi
  have hn : Nat.sqrt ⌊v / (2 ^ (h - 52) * 2 ^ (h - 52))⌋₊ = n := by
    apply natSqrt_floor _ _ _ h2
    refine le_trans ?_ h1.le
    have : (0 : ℚ) ≤ n := Nat.cast_nonneg n
    nlinarith
  simp only [sqrtDouble, if_neg (not_le.mpr hpos), hlog, hh, hn, if_neg (not_lt.mpr h1.le),
    if_pos h1]

theorem roundDouble_le_of_le_isDouble {q r : ℚ} (hr : IsDouble r) (h : q ≤ r) :
    roundDouble q ≤ r := by
  have := roundDouble_mono h
  rwa [roundDouble_of_isDouble r hr] at this

theorem roundDouble_ge_of_ge_isDouble {q r : ℚ} (hr : IsDouble r) (h : r ≤ q) :
    r ≤ roundDouble q := by
  have := roundDouble_mono h
  rwa [roundDouble_of_isDouble r hr] at this

theorem roundDouble_le_two_mul {q : ℚ} (h : 0 ≤ q) : roundDouble q ≤ 2 * q := by
  have hn := roundDouble_nearest q 0 isDouble_zero
  rw [zero_sub, abs_neg, abs_of_nonneg h] at hn
  have := (abs_le.mp hn).2
  linarith

theorem two_mul_le_roundDouble {q : ℚ} (h : q ≤ 0) : 2 * q ≤ roundDouble q := by
  have hn := roundDouble_nearest q 0 isDouble_zero
  rw [zero_sub, abs_neg, abs_of_nonpos h] at hn
  have := (abs_le.mp hn).1
  linarith

theorem isDouble_one : IsDouble 1 :=
  ⟨1, 0, by norm_num, by norm_num⟩

theorem isDouble_hundred : IsDouble 100 :=
  ⟨100, 0, by norm_num, by norm_num⟩

theorem isDouble_div64 {r : ℚ} (hr : IsDouble r) : IsDouble (r / 64) := by
  have := isDouble_mul_zpow hr (-6)
  have e : r * 2 ^ (-6 : ℤ) = r / 64 := by norm_num [div_eq_mul_inv]
  rwa [e] at this

/-- The double `0.01` lies in `(0, 1/64]`. -/
theorem c01_bounds : 0 < roundDouble 0.01 ∧ roundDouble 0.01 ≤ 1 / 64 := by
  constructor
  · exact roundDouble_pos (by norm_num)
  · have h64 : IsDouble (1 / 64) := by
      have := isDouble_div64 isDouble_one
      simpa using this
    exact roundDouble_le_of_le_isDouble h64 (by norm_num)

/-- One coordinate of the mouse interaction in double arithmetic, pointer at or above the
particle: the new coordinate lies between the old one and the pointer, and stays below the
pointer when the old one is. -/
theorem coord_up (mx x f : ℚ) (hmx : IsDouble mx) (hx : IsDouble x) (hf0 : 0 ≤ f)
    (hf1 : f ≤ 1) (h : x ≤ mx) :
    x ≤ fadd x (fmul (fmul (fsub mx x) f) (roundDouble 0.01)) ∧
    fadd x (fmul (fmul (fsub mx x) f) (roundDouble 0.01)) ≤ mx ∧
    (x < mx → fadd x (fmul (fmul (fsub mx x) f) (roundDouble 0.01)) < mx) := by
  obtain ⟨hc0, hc1⟩ := c01_bounds
  have hd0 : 0 ≤ fsub mx x := roundDouble_nonneg (by linarith)
  have hd2 : fsub mx x ≤ 2 * (mx - x) := roundDouble_le_two_mul (by linarith)
  have hdD : IsDouble (fsub mx x) := roundDouble_isDouble _
  have hg0 : 0 ≤ fmul (fsub mx x) f := roundDouble_nonneg (mul_nonneg hd0 hf0)
  have hg1 : fmul (fsub mx x) f ≤ fsub mx x :=
    roundDouble_le_of_le_isDouble hdD (mul_le_of_le_one_right hd0 hf1)
  have hn0 : 0 ≤ fmul (fmul (fsub mx x) f) (roundDouble 0.01) :=
    roundDouble_nonneg (mul_nonneg hg0 hc0.le)
  have hn1 : fmul (fmul (fsub mx x) f) (roundDouble 0.01) ≤ fsub mx x / 64 := by
    apply roundDouble_le_of_le_isDouble (isDouble_div64 hdD)
    calc fmul (fsub mx x) f * roundDouble 0.01 ≤ fsub mx x * (1 / 64) :=
          mul_le_mul hg1 hc1 hc0.le hd0
      _ = fsub mx x / 64 := by ring
  refine ⟨?_, ?_, ?_⟩
  · exact roundDouble_ge_of_ge_isDouble hx (by linarith)
  · exact roundDouble_le_of_le_isDouble hmx (by linarith)
  · intro hlt
    have hn := roundDouble_nearest (x + fmul (fmul (fsub mx x) f) (roundDouble 0.01)) x hx
    have e : x - (x + fmul (fmul (fsub mx x) f) (roundDouble 0.01)) =
        -(fmul (fmul (fsub mx x) f) (roundDouble 0.01)) := by ring
    rw [e, abs_neg, abs_of_nonneg hn0] at hn
    have := (abs_le.mp hn).2
    show roundDouble (x + fmul (fmul (fsub mx x) f) (roundDouble 0.01)) < mx
    linarith

/-- One coordinate of the mouse interaction in double arithmetic, pointer at or below the
particle. -/
theorem coord_down (mx x f : ℚ) (hmx : IsDouble mx) (hx : IsDouble x) (hf0 : 0 ≤ f)
    (hf1 : f ≤ 1) (h : mx ≤ x) :
    mx ≤ fadd x (fmul (fmul (fsub mx x) f) (roundDouble 0.01)) ∧
    fadd x (fmul (fmul (fsub mx x) f) (roundDouble 0.01)) ≤ x ∧
    (mx < x → mx < fadd x (fmul (fmul (fsub mx x) f) (roundDouble 0.01))) := by
  obtain ⟨hc0, hc1⟩ := c01_bounds
  have hd0 : fsub mx x ≤ 0 := roundDouble_nonpos (by linarith)
  have hd2 : 2 * (mx - x) ≤ fsub mx x := two_mul_le_roundDouble (by linarith)
  have hdD : IsDouble (fsub mx x) := roundDouble_isDouble _
  have hg0 : fmul (fsub mx x) f ≤ 0 :=
    roundDouble_nonpos (mul_nonpos_of_nonpos_of_nonneg hd0 hf0)
  have hg1 : fsub mx x ≤ fmul (fsub mx x) f := by
    apply roundDouble_ge_of_ge_isDouble hdD
    nlinarith
  have hn0 : fmul (fmul (fsub mx x) f) (roundDouble 0.01) ≤ 0 :=
    roundDouble_nonpos (mul_nonpos_of_nonpos_of_nonneg hg0 hc0.le)
  have hn1 : fsub mx x / 64 ≤ fmul (fmul (fsub mx x) f) (roundDouble 0.01) := by
    apply roundDouble_ge_of_ge_isDouble (isDouble_div64 hdD)
    nlinarith
  refine ⟨?_, ?_, ?_⟩
  · exact roundDouble_ge_of_ge_isDouble hmx (by linarith)
  · exact roundDouble_le_of_le_isDouble hx (by linarith)
  · intro hlt
    have hn := roundDouble_nearest (x + fmul (fmul (fsub mx x) f) (roundDouble 0.01)) x hx
    have e : x - (x + fmul (fmul (fsub mx x) f) (roundDouble 0.01)) =
        -(fmul (fmul (fsub mx x) f) (roundDouble 0.01)) := by ring
    rw [e, abs_neg, abs_of_nonpos hn0] at hn
    have := (abs_le.mp hn).1
    show mx < roundDouble (x + fmul (fmul (fsub mx x) f) (roundDouble 0.01))
    linarith

theorem coord_between (mx x f : ℚ) (hmx : IsDouble mx) (hx : IsDouble x) (hf0 : 0 ≤ f)
    (hf1 : f ≤ 1) :
    ((x ≤ fadd x (fmul (fmul (fsub mx x) f) (roundDouble 0.01)) ∧
        fadd x (fmul (fmul (fsub mx x) f) (roundDouble 0.01)) ≤ mx) ∨
      (mx ≤ fadd x (fmul (fmul (fsub mx x) f) (roundDouble 0.01)) ∧
        fadd x (fmul (fmul (fsub mx x) f) (roundDouble 0.01)) ≤ x)) ∧
    (x ≠ mx → fadd x (fmul (fmul (fsub mx x) f) (roundDouble 0.01)) ≠ mx) ∧
    (mx - fadd x (fmul (fmul (fsub mx x) f) (roundDouble 0.01))) *
        (mx - fadd x (fmul (fmul (fsub mx x) f) (roundDouble 0.01))) ≤
      (mx - x) * (mx - x) := by
  rcases le_total x mx with h | h
  · obtain ⟨h1, h2, h3⟩ := coord_up mx x f hmx hx hf0 hf1 h
    refine ⟨Or.inl ⟨h1, h2⟩, ?_, ?_⟩
    · intro hne
      exact ne_of_lt (h3 (lt_of_le_of_ne h hne))
    · nlinarith
  · obtain ⟨h1, h2, h3⟩ := coord_down mx x f hmx hx hf0 hf1 h
    refine ⟨Or.inr ⟨h1, h2⟩, ?_, ?_⟩
    · intro hne
      exact ne_of_gt (h3 (lt_of_le_of_ne h (Ne.symm hne)))
    · nlinarith

/-- The `force` of the mouse interaction lies in `(0, 1]` when the computed distance is
below 100. -/
theorem force_bounds (d : ℚ) (h0 : 0 ≤ d) (h1 : d < 100) :
    0 < fdiv (fsub 100 d) 100 ∧ fdiv (fsub 100 d) 100 ≤ 1 := by
  have hs0 : 0 < fsub 100 d := roundDouble_pos (by linarith)
  have hs1 : fsub 100 d ≤ 100 := roundDouble_le_of_le_isDouble isDouble_hundred (by linarith)
  constructor
  · exact roundDouble_pos (div_pos hs0 (by norm_num))
  · apply roundDouble_le_of_le_isDouble isDouble_one
    rw [div_le_one (by norm_num)]
    exact hs1

theorem mouseDistanceDouble_self (mouse : Mouse ℚ) :
    mouseDistanceDouble mouse mouse.x mouse.y = 0 := by
  simp [mouseDistanceDouble, fsub, fmul, fadd, roundDouble_zero, sqrtDouble_zero]

theorem fmul_ne_zero {a b : ℚ} (ha : a ≠ 0) (hb : b ≠ 0) : fmul a b ≠ 0 :=
  roundDouble_ne_zero (mul_ne_zero ha hb)

/-- C4, amended: with every operation rounded to a double (pointer coordinates being
doubles), let `d` be the distance the code computes for a particle that has just been moved
by its velocity.  If `d ≥ 100` nothing is added and the position stays.  If `0 < d < 100`
the code adds the doubles `dx * force * 0.01` and `dy * force * 0.01` with
`force = (100 - d) / 100`, not both zero; each coordinate then lies between its old value
and the pointer's without reaching the pointer's unless it was there, so the Euclidean
distance to the pointer stays positive and does not grow. -/
theorem C4_pointer_nudge_double (mouse : Mouse ℚ) (p : Particle ℚ)
    (hmx : IsDouble mouse.x) (hmy : IsDouble mouse.y) :
    let x := fadd p.x p.vx
    let y := fadd p.y p.vy
    let d := mouseDistanceDouble mouse x y
    let force := fdiv (fsub 100 d) 100
    (100 ≤ d → nudgeDouble mouse x y = (0, 0) ∧ movedPosDouble mouse p = (x, y)) ∧
    (0 < d → d < 100 →
      nudgeDouble mouse x y =
        (fmul (fmul (fsub mouse.x x) force) (roundDouble 0.01),
          fmul (fmul (fsub mouse.y y) force) (roundDouble 0.01)) ∧
      nudgeDouble mouse x y ≠ (0, 0) ∧
      movedPosDouble mouse p =
        (fadd x (nudgeDouble mouse x y).1, fadd y (nudgeDouble mouse x y).2) ∧
      ((x ≤ (movedPosDouble mouse p).1 ∧ (movedPosDouble mouse p).1 ≤ mouse.x) ∨
        (mouse.x ≤ (movedPosDouble mouse p).1 ∧ (movedPosDouble mouse p).1 ≤ x)) ∧
      ((y ≤ (movedPosDouble mouse p).2 ∧ (movedPosDouble mouse p).2 ≤ mouse.y) ∨
        (mouse.y ≤ (movedPosDouble mouse p).2 ∧ (movedPosDouble mouse p).2 ≤ y)) ∧
      0 < (mouse.x - (movedPosDouble mouse p).1) * (mouse.x - (movedPosDouble mouse p).1) +
          (mouse.y - (movedPosDouble mouse p).2) * (mouse.y - (movedPosDouble mouse p).2) ∧
      (mouse.x - (movedPosDouble mouse p).1) * (mouse.x - (movedPosDouble mouse p).1) +
          (mouse.y - (movedPosDouble mouse p).2) * (mouse.y - (movedPosDouble mouse p).2) ≤
        (mouse.x - x) * (mouse.x - x) + (mouse.y - y) * (mouse.y - y)) := by
  intro x y d force
  have hxD : IsDouble x := roundDouble_isDouble _
  have hyD : IsDouble y := roundDouble_isDouble _
  have hd_def : sqrtDouble (fadd (fmul (fsub mouse.x x) (fsub mouse.x x))
      (fmul (fsub mouse.y y) (fsub mouse.y y))) = d := rfl
  constructor
  · intro h
    have hn : nudgeDouble mouse x y = (0, 0) := by
      simp only [nudgeDouble, hd_def]
      rw [if_neg (not_lt.mpr h)]
    refine ⟨hn, ?_⟩
    show (if mouseDistanceDouble mouse x y < 100 then _ else (x, y)) = (x, y)
    rw [if_neg (not_lt.mpr h)]
  · intro h0 h1
    have hn : nudgeDouble mouse x y =
        (fmul (fmul (fsub mouse.x x) force) (roundDouble 0.01),
          fmul (fmul (fsub mouse.y y) force) (roundDouble 0.01)) := by
      simp only [nudgeDouble, hd_def]
      rw [if_pos h1]
    have hm : movedPosDouble mouse p =
        (fadd x (nudgeDouble mouse x y).1, fadd y (nudgeDouble mouse x y).2) := by
      show (if mouseDistanceDouble mouse x y < 100 then _ else (x, y)) = _
      rw [if_pos h1]
    obtain ⟨hf0, hf1⟩ := force_bounds d h0.le h1
    have hc := (c01_bounds).1
    obtain ⟨bx, nx, sx⟩ := coord_between mouse.x x force hmx hxD hf0.le hf1
    obtain ⟨by', ny, sy⟩ := coord_between mouse.y y force hmy hyD hf0.le hf1
    have hne : x ≠ mouse.x ∨ y ≠ mouse.y := by
      by_contra hcon
      push_neg at hcon
      have : d = 0 := by
        show mouseDistanceDouble mouse x y = 0
        rw [hcon.1, hcon.2]
        exact mouseDistanceDouble_self mouse
      exact absurd this (ne_of_gt h0)
    have h1' : (movedPosDouble mouse p).1 =
        fadd x (fmul (fmul (fsub mouse.x x) force) (roundDouble 0.01)) := by
      rw [hm, hn]
    have h2' : (movedPosDouble mouse p).2 =
        fadd y (fmul (fmul (fsub mouse.y y) force) (roundDouble 0.01)) := by
      rw [hm, hn]
    refine ⟨hn, ?_, hm, ?_, ?_, ?_, ?_⟩
    · rw [hn]
      intro he
      have e1 : fmul (fmul (fsub mouse.x x) force) (roundDouble 0.01) = 0 :=
        congrArg Prod.fst he
      have e2 : fmul (fmul (fsub mouse.y y) force) (roundDouble 0.01) = 0 :=
        congrArg Prod.snd he
      rcases hne with hx | hy
      · have : fsub mouse.x x ≠ 0 := roundDouble_ne_zero (sub_ne_zero.mpr (Ne.symm hx))
        exact fmul_ne_zero (fmul_ne_zero this (ne_of_gt hf0)) (ne_of_gt hc) e1
      · have : fsub mouse.y y ≠ 0 := roundDouble_ne_zero (sub_ne_zero.mpr (Ne.symm hy))
        exact fmul_ne_zero (fmul_ne_zero this (ne_of_gt hf0)) (ne_of_gt hc) e2
    · rw [h1']
      exact bx
    · rw [h2']
      exact by'
    · rw [h1', h2']
      rcases hne with hx | hy
      · have : mouse.x - fadd x (fmul (fmul (fsub mouse.x x) force) (roundDouble 0.01)) ≠ 0 :=
          sub_ne_zero.mpr (Ne.symm (nx hx))
        have := mul_self_pos.mpr this
        have := mul_self_nonneg
          (mouse.y - fadd y (fmul (fmul (fsub mouse.y y) force) (roundDouble 0.01)))
        linarith
      · have : mouse.y - fadd y (fmul (fmul (fsub mouse.y y) force) (roundDouble 0.01)) ≠ 0 :=
          sub_ne_zero.mpr (Ne.symm (ny hy))
        have := mul_self_pos.mpr this
        have := mul_self_nonneg
          (mouse.x - fadd x (fmul (fmul (fsub mouse.x x) force) (roundDouble 0.01)))
        linarith
    · rw [h1', h2']
      exact add_le_add sx sy

theorem fadd_zero_of_isDouble (a : ℚ) (h : IsDouble a) : fadd a 0 = a := by
  rw [fadd, add_zero, roundDouble_of_isDouble a h]

theorem absorb_x : fadd absorbParticle.x absorbParticle.vx = 200 - 1 / 2 ^ 45 := by
  apply fadd_zero_of_isDouble
  exact ⟨7036874417766399, -45, by norm_num, by norm_num [absorbParticle]⟩

theorem absorb_y : fadd absorbParticle.y absorbParticle.vy = 300 := by
  apply fadd_zero_of_isDouble
  exact ⟨300, 0, by norm_num, by norm_num [absorbParticle]⟩

theorem absorb_dx : fsub absorbMouse.x (200 - 1 / 2 ^ 45) = -(100 - 1 / 2 ^ 45) := by
  have h : absorbMouse.x - (200 - 1 / 2 ^ 45) = -(100 - 1 / 2 ^ 45) := by
    norm_num [absorbMouse]
  rw [fsub, h]
  exact roundDouble_of_isDouble _ ⟨-3518437208883199, -45, by norm_num, by norm_num⟩

theorem absorb_dy : fsub absorbMouse.y 300 = 0 := by
  have h : absorbMouse.y - 300 = 0 := by norm_num [absorbMouse]
  rw [fsub, h, roundDouble_zero]

theorem absorb_dxdx :
    fmul (-(100 - 1 / 2 ^ 45)) (-(100 - 1 / 2 ^ 45)) = 10000 - 3 / 2 ^ 39 := by
  rw [fmul, roundDouble_eval_pos _ 13 5497558138879997] <;> norm_num

theorem absorb_sum : fadd (10000 - 3 / 2 ^ 39) (fmul 0 0) = 10000 - 3 / 2 ^ 39 := by
  have h0 : fmul 0 0 = 0 := by rw [fmul, mul_zero, roundDouble_zero]
  rw [h0]
  apply fadd_zero_of_isDouble
  exact ⟨5497558138879997, -39, by norm_num, by norm_num⟩

theorem absorb_sqrt : sqrtDouble (10000 - 3 / 2 ^ 39) = 100 - 1 / 2 ^ 45 := by
  rw [sqrtDouble_eval_down _ 13 6 7036874417766398] <;> norm_num

/-- The distance the code computes for the absorbed particle: the double just below 100,
which here is also the exact Euclidean distance. -/
theorem absorb_distance :
    mouseDistanceDouble absorbMouse (200 - 1 / 2 ^ 45) 300 = 100 - 1 / 2 ^ 45 := by
  simp only [mouseDistanceDouble, absorb_dx, absorb_dy, absorb_dxdx, absorb_sum, absorb_sqrt]

theorem absorb_force : fdiv (fsub 100 (100 - 1 / 2 ^ 45)) 100 =
    5764607523034235 * 2 ^ (-104 : ℤ) := by
  have h : fsub 100 (100 - 1 / 2 ^ 45) = 1 / 2 ^ 45 := by
    have e : (100 : ℚ) - (100 - 1 / 2 ^ 45) = 1 / 2 ^ 45 := by norm_num
    rw [fsub, e]
    exact roundDouble_of_isDouble _ ⟨1, -45, by norm_num, by norm_num⟩
  rw [h, fdiv, roundDouble_eval_pos _ (-52) 5764607523034235] <;> norm_num

theorem absorb_c01 : roundDouble 0.01 = 5764607523034235 * 2 ^ (-59 : ℤ) := by
  rw [roundDouble_eval_pos _ (-7) 5764607523034235] <;> norm_num

theorem absorb_nudge_x :
    fmul (fmul (-(100 - 1 / 2 ^ 45)) (5764607523034235 * 2 ^ (-104 : ℤ)))
      (5764607523034235 * 2 ^ (-59 : ℤ)) = -5764607523034234 * 2 ^ (-104 : ℤ) := by
  have h : fmul (-(100 - 1 / 2 ^ 45)) (5764607523034235 * 2 ^ (-104 : ℤ)) =
      -9007199254740990 * 2 ^ (-98 : ℤ) := by
    rw [fmul, roundDouble_eval_neg _ (-46) (-9007199254740990)] <;> norm_num
  rw [h, fmul, roundDouble_eval_neg _ (-52) (-5764607523034234)] <;> norm_num

theorem absorb_add : fadd (200 - 1 / 2 ^ 45) (-5764607523034234 * 2 ^ (-104 : ℤ)) =
    200 - 1 / 2 ^ 45 := by
  rw [fadd, roundDouble_eval_pos _ 7 7036874417766399] <;> norm_num

theorem absorb_nudge : nudgeDouble absorbMouse (200 - 1 / 2 ^ 45) 300 =
    (-5764607523034234 * 2 ^ (-104 : ℤ), 0) := by
  have hd : sqrtDouble (fadd (fmul (fsub absorbMouse.x (200 - 1 / 2 ^ 45))
      (fsub absorbMouse.x (200 - 1 / 2 ^ 45)))
      (fmul (fsub absorbMouse.y 300) (fsub absorbMouse.y 300))) = 100 - 1 / 2 ^ 45 :=
    absorb_distance
  have h0 : fmul (fmul 0 (5764607523034235 * 2 ^ (-104 : ℤ)))
      (5764607523034235 * 2 ^ (-59 : ℤ)) = 0 := by
    simp [fmul, roundDouble_zero]
  simp only [nudgeDouble, hd]
  rw [if_pos (by norm_num)]
  simp only [absorb_dx, absorb_dy, absorb_force, absorb_c01, absorb_nudge_x, h0]

theorem absorb_moved :
    movedPosDouble absorbMouse absorbParticle = (200 - 1 / 2 ^ 45, 300) := by
  simp only [movedPosDouble, absorb_x, absorb_y, absorb_distance, absorb_nudge]
  rw [if_pos (by norm_num), absorb_add]
  have : fadd 300 0 = 300 :=
    fadd_zero_of_isDouble 300 ⟨300, 0, by norm_num, by norm_num⟩
  rw [this]

/-- C4 as stated fails in double arithmetic: for the particle at rest at `(200 - 2^-45, 300)`
and the pointer at `(100, 300)` the computed distance `d = 100 - 2^-45` is the exact
Euclidean distance and `0 < d < 100`, yet the addition absorbs the nudge: the position is
unchanged, so the distance after the nudge is `d` again, not strictly smaller. -/
theorem C4_nudge_absorbed_counterexample :
    mouseDistanceDouble absorbMouse (fadd absorbParticle.x absorbParticle.vx)
        (fadd absorbParticle.y absorbParticle.vy) = 100 - 1 / 2 ^ 45 ∧
    ((100 : ℚ) - 1 / 2 ^ 45) * (100 - 1 / 2 ^ 45) =
        (absorbMouse.x - fadd absorbParticle.x absorbParticle.vx) *
          (absorbMouse.x - fadd absorbParticle.x absorbParticle.vx) +
        (absorbMouse.y - fadd absorbParticle.y absorbParticle.vy) *
          (absorbMouse.y - fadd absorbParticle.y absorbParticle.vy) ∧
    (0 : ℚ) < 100 - 1 / 2 ^ 45 ∧ (100 : ℚ) - 1 / 2 ^ 45 < 100 ∧
    movedPosDouble absorbMouse absorbParticle =
        (fadd absorbParticle.x absorbParticle.vx, fadd absorbParticle.y absorbParticle.vy) ∧
    ¬ ((absorbMouse.x - (movedPosDouble absorbMouse absorbParticle).1) *
          (absorbMouse.x - (movedPosDouble absorbMouse absorbParticle).1) +
        (absorbMouse.y - (movedPosDouble absorbMouse absorbParticle).2) *
          (absorbMouse.y - (movedPosDouble absorbMouse absorbParticle).2) <
        ((100 : ℚ) - 1 / 2 ^ 45) * (100 - 1 / 2 ^ 45)) := by
  rw [absorb_moved, absorb_x, absorb_y, absorb_distance]
  refine ⟨rfl, ?_, ?_, ?_, rfl, ?_⟩ <;> norm_num [absorbMouse]

/-- Witness of the amended C4 at the absorbed particle: the pointer coordinates 100 and 300
are doubles, the computed distance lies in `(0, 100)`, the nudge is not `(0, 0)` and the
squared distance to the pointer does not grow. -/
theorem C4_pointer_nudge_double_witness :
    (IsDouble absorbMouse.x ∧ IsDouble absorbMouse.y) ∧
    (0 < mouseDistanceDouble absorbMouse (fadd absorbParticle.x absorbParticle.vx)
        (fadd absorbParticle.y absorbParticle.vy) ∧
      mouseDistanceDouble absorbMouse (fadd absorbParticle.x absorbParticle.vx)
        (fadd absorbParticle.y absorbParticle.vy) < 100) ∧
    nudgeDouble absorbMouse (fadd absorbParticle.x absorbParticle.vx)
        (fadd absorbParticle.y absorbParticle.vy) ≠ (0, 0) ∧
    (absorbMouse.x - (movedPosDouble absorbMouse absorbParticle).1) *
          (absorbMouse.x - (movedPosDouble absorbMouse absorbParticle).1) +
        (absorbMouse.y - (movedPosDouble absorbMouse absorbParticle).2) *
          (absorbMouse.y - (movedPosDouble absorbMouse absorbParticle).2) ≤
      (absorbMouse.x - fadd absorbParticle.x absorbParticle.vx) *
          (absorbMouse.x - fadd absorbParticle.x absorbParticle.vx) +
        (absorbMouse.y - fadd absorbParticle.y absorbParticle.vy) *
          (absorbMouse.y - fadd absorbParticle.y absorbParticle.vy) := by
  have hx : IsDouble absorbMouse.x := ⟨100, 0, by norm_num, by norm_num [absorbMouse]⟩
  have hy : IsDouble absorbMouse.y := ⟨300, 0, by norm_num, by norm_num [absorbMouse]⟩
  have hd : 0 < mouseDistanceDouble absorbMouse (fadd absorbParticle.x absorbParticle.vx)
        (fadd absorbParticle.y absorbParticle.vy) ∧
      mouseDistanceDouble absorbMouse (fadd absorbParticle.x absorbParticle.vx)
        (fadd absorbParticle.y absorbParticle.vy) < 100 := by
    rw [absorb_x, absorb_y, absorb_distance]
    constructor <;> norm_num
  have h := (C4_pointer_nudge_double absorbMouse absorbParticle hx hy).2 hd.1 hd.2
  exact ⟨⟨hx, hy⟩, hd, h.2.1, h.2.2.2.2.2.2⟩

theorem roundHalfEven_tie_even (t : ℚ) (m : ℤ) (ht : t = m + 1 / 2) (hm : m % 2 = 0) :
    roundHalfEven t = m := by
  have hf : ⌊t⌋ = m := by
    rw [Int.floor_eq_iff, ht]
    constructor <;> linarith
  have hr : t - (m : ℚ) = 1 / 2 := by rw [ht]; ring
  simp only [roundHalfEven, hf, hr, lt_irrefl, if_false, hm, if_true]

theorem roundDouble_eval_tie_pos (q : ℚ) (k m : ℤ) (hlo : (2 : ℚ) ^ k ≤ q)
    (hhi : q < 2 ^ (k + 1)) (ht : q / 2 ^ (k - 52) = m + 1 / 2) (hm : m % 2 = 0) :
    roundDouble q = m * 2 ^ (k - 52) := by
  have hpos : 0 < q := lt_of_lt_of_le (two_zpow_pos k) hlo
  have hlog : Int.log 2 |q| = k := by
    rw [abs_of_pos hpos]
    exact log_eq_of_bounds q k hlo hhi
  simp only [roundDouble, if_neg (ne_of_gt hpos), hlog]
  rw [roundHalfEven_tie_even _ m ht hm]

theorem roundDouble_one : roundDouble 1 = 1 :=
  roundDouble_of_isDouble 1 isDouble_one

theorem c03_nonneg : 0 ≤ roundDouble 0.3 :=
  roundDouble_nonneg (by norm_num)

theorem lineAlphaDouble_anti (c : ℚ) (hc : 0 < c) {d1 d2 : ℚ} (h : d1 ≤ d2) :
    lineAlphaDouble c d2 ≤ lineAlphaDouble c d1 := by
  simp only [lineAlphaDouble, fmul, fdiv, fsub]
  apply roundDouble_mono
  apply mul_le_mul_of_nonneg_right _ c03_nonneg
  apply roundDouble_mono
  apply div_le_div_of_nonneg_right _ hc.le
  apply roundDouble_mono
  linarith

theorem lineAlphaDouble_self (c : ℚ) : lineAlphaDouble c c = 0 := by
  simp [lineAlphaDouble, fmul, fdiv, fsub, roundDouble_zero]

theorem lineAlphaDouble_zero (c : ℚ) (hc : 0 < c) (hcD : IsDouble c) :
    lineAlphaDouble c 0 = roundDouble 0.3 := by
  simp only [lineAlphaDouble, fmul, fdiv, fsub, sub_zero]
  rw [roundDouble_of_isDouble c hcD, div_self (ne_of_gt hc), roundDouble_one, one_mul,
    roundDouble_of_isDouble _ (roundDouble_isDouble _)]

theorem connectionDouble_some (c : ℚ) (ps : List (Particle ℚ)) (i j : Nat) (l : Line ℚ)
    (h : connectionDouble c ps i j = some l) :
    ∃ p q, ps[i]? = some p ∧ ps[j]? = some q ∧ pairDistanceDouble p q < c ∧
      l = { i := i, j := j, alpha := lineAlphaDouble c (pairDistanceDouble p q),
            x1 := p.x, y1 := p.y, x2 := q.x, y2 := q.y } := by
  unfold connectionDouble at h
  split at h
  · rename_i p q hp hq
    by_cases hd : pairDistanceDouble p q < c
    · simp only [hd, if_true, Option.some.injEq] at h
      exact ⟨p, q, hp, hq, hd, h.symm⟩
    · simp only [hd, if_false] at h
      exact absurd h (by simp)
  · exact absurd h (by simp)

theorem connectionDouble_of (c : ℚ) (ps : List (Particle ℚ)) (i j : Nat)
    (p q : Particle ℚ) (hp : ps[i]? = some p) (hq : ps[j]? = some q) :
    connectionDouble c ps i j =
      if pairDistanceDouble p q < c then
        some { i := i, j := j, alpha := lineAlphaDouble c (pairDistanceDouble p q),
               x1 := p.x, y1 := p.y, x2 := q.x, y2 := q.y }
      else none := by
  simp only [connectionDouble, hp, hq]

/-- Rounding to a double moves a number by at most `2^-53` of its size. -/
theorem roundDouble_rel (q : ℚ) : |roundDouble q - q| ≤ |q| / 2 ^ 53 := by
  by_cases hq : q = 0
  · rw [hq, roundDouble_zero]
    simp
  simp only [roundDouble, if_neg hq]
  obtain ⟨hlo, -⟩ := scaled_bounds q hq
  have hu := two_zpow_pos (Int.log 2 |q| - 52)
  have hh := roundHalfEven_half (q / 2 ^ (Int.log 2 |q| - 52))
  generalize Int.log 2 |q| - 52 = e at hlo hu hh ⊢
  have hq_eq : q = q / 2 ^ e * 2 ^ e := by
    rw [div_mul_cancel₀ _ (ne_of_gt hu)]
  have e1 : (roundHalfEven (q / 2 ^ e) : ℚ) * 2 ^ e - q =
      ((roundHalfEven (q / 2 ^ e) : ℚ) - q / 2 ^ e) * 2 ^ e := by
    rw [sub_mul, ← hq_eq]
  have e2 : |q| = |q / 2 ^ e| * 2 ^ e := by
    rw [abs_div, abs_of_pos hu, div_mul_cancel₀ _ (ne_of_gt hu)]
  rw [e1, abs_mul, abs_of_pos hu, e2]
  have h1 : |(roundHalfEven (q / 2 ^ e) : ℚ) - q / 2 ^ e| ≤ |q / 2 ^ e| / 2 ^ 53 := by
    refine le_trans hh ?_
    rw [le_div_iff₀ (by norm_num)]
    have : (2 : ℚ) ^ (52 : ℕ) * (1 / 2 * 2 ^ 53) ≤ |q / 2 ^ e| * (1 / 2 * 2 ^ 53) :=
      mul_le_mul_of_nonneg_right hlo (by norm_num)
    norm_num at this ⊢
    linarith
  calc |(roundHalfEven (q / 2 ^ e) : ℚ) - q / 2 ^ e| * 2 ^ e
      ≤ |q / 2 ^ e| / 2 ^ 53 * 2 ^ e := mul_le_mul_of_nonneg_right h1 hu.le
    _ = |q / 2 ^ e| * 2 ^ e / 2 ^ 53 := by ring

theorem roundDouble_rel_nonneg {q : ℚ} (h : 0 ≤ q) :
    q * (1 - 1 / 2 ^ 53) ≤ roundDouble q ∧ roundDouble q ≤ q * (1 + 1 / 2 ^ 53) := by
  have hr := roundDouble_rel q
  rw [abs_of_nonneg h] at hr
  obtain ⟨h1, h2⟩ := abs_le.mp hr
  constructor <;> linarith

/-- One rounding applied to a quantity known up to the factors `lo` and `hi`. -/
theorem rel_step (q A lo hi : ℚ) (hA : 0 ≤ A) (hlo : 0 ≤ lo) (h1 : A * lo ≤ q)
    (h2 : q ≤ A * hi) :
    A * (lo * (1 - 1 / 2 ^ 53)) ≤ roundDouble q ∧
      roundDouble q ≤ A * (hi * (1 + 1 / 2 ^ 53)) := by
  have hq : 0 ≤ q := le_trans (mul_nonneg hA hlo) h1
  obtain ⟨r1, r2⟩ := roundDouble_rel_nonneg hq
  constructor
  · calc A * (lo * (1 - 1 / 2 ^ 53)) = A * lo * (1 - 1 / 2 ^ 53) := by ring
      _ ≤ q * (1 - 1 / 2 ^ 53) := mul_le_mul_of_nonneg_right h1 (by norm_num)
      _ ≤ roundDouble q := r1
  · calc roundDouble q ≤ q * (1 + 1 / 2 ^ 53) := r2
      _ ≤ A * hi * (1 + 1 / 2 ^ 53) := mul_le_mul_of_nonneg_right h2 (by norm_num)
      _ = A * (hi * (1 + 1 / 2 ^ 53)) := by ring

/-- The opacity computed in doubles differs from `0.3 * (c - d) / c` by at most `2^-50` of
that value. -/
theorem lineAlphaDouble_near (c d : ℚ) (hc : 0 < c) (h1 : d ≤ c) :
    |lineAlphaDouble c d - 0.3 * (c - d) / c| ≤ 0.3 * (c - d) / c / 2 ^ 50 := by
  have hA : 0 ≤ c - d := by linarith
  have hB : 0 ≤ (c - d) / c := div_nonneg hA hc.le
  obtain ⟨l1, u1⟩ := rel_step (c - d) (c - d) 1 1 hA (by norm_num) (by linarith) (by linarith)
  have l1' : (c - d) / c * (1 * (1 - 1 / 2 ^ 53)) ≤ fsub c d / c := by
    rw [div_mul_eq_mul_div]
    exact div_le_div_of_nonneg_right l1 hc.le
  have u1' : fsub c d / c ≤ (c - d) / c * (1 * (1 + 1 / 2 ^ 53)) := by
    rw [div_mul_eq_mul_div]
    exact div_le_div_of_nonneg_right u1 hc.le
  obtain ⟨l2, u2⟩ := rel_step (fsub c d / c) ((c - d) / c) _ _ hB (by norm_num) l1' u1'
  obtain ⟨lk, uk⟩ := roundDouble_rel_nonneg (show (0 : ℚ) ≤ 0.3 by norm_num)
  have hk0 : 0 ≤ roundDouble 0.3 := c03_nonneg
  have ha2 : 0 ≤ fdiv (fsub c d) c := le_trans (mul_nonneg hB (by norm_num)) l2
  have hE : 0 ≤ (c - d) / c * 0.3 := mul_nonneg hB (by norm_num)
  have l3 : (c - d) / c * 0.3 * (1 * (1 - 1 / 2 ^ 53) * (1 - 1 / 2 ^ 53) * (1 - 1 / 2 ^ 53)) ≤
      fdiv (fsub c d) c * roundDouble 0.3 := by
    calc (c - d) / c * 0.3 * (1 * (1 - 1 / 2 ^ 53) * (1 - 1 / 2 ^ 53) * (1 - 1 / 2 ^ 53))
        = ((c - d) / c * (1 * (1 - 1 / 2 ^ 53) * (1 - 1 / 2 ^ 53))) *
            (0.3 * (1 - 1 / 2 ^ 53)) := by ring
      _ ≤ fdiv (fsub c d) c * roundDouble 0.3 :=
          mul_le_mul l2 lk (by norm_num) ha2
  have u3 : fdiv (fsub c d) c * roundDouble 0.3 ≤
      (c - d) / c * 0.3 * (1 * (1 + 1 / 2 ^ 53) * (1 + 1 / 2 ^ 53) * (1 + 1 / 2 ^ 53)) := by
    calc fdiv (fsub c d) c * roundDouble 0.3
        ≤ ((c - d) / c * (1 * (1 + 1 / 2 ^ 53) * (1 + 1 / 2 ^ 53))) *
            (0.3 * (1 + 1 / 2 ^ 53)) :=
          mul_le_mul u2 uk hk0 (mul_nonneg hB (by norm_num))
      _ = (c - d) / c * 0.3 * (1 * (1 + 1 / 2 ^ 53) * (1 + 1 / 2 ^ 53) * (1 + 1 / 2 ^ 53)) := by
          ring
  obtain ⟨l4, u4⟩ := rel_step (fdiv (fsub c d) c * roundDouble 0.3) ((c - d) / c * 0.3) _ _
    hE (by norm_num) l3 u3
  have hl : (c - d) / c * 0.3 * (1 - 1 / 2 ^ 50) ≤ lineAlphaDouble c d := by
    refine le_trans ?_ l4
    exact mul_le_mul_of_nonneg_left (by norm_num) hE
  have hu : lineAlphaDouble c d ≤ (c - d) / c * 0.3 * (1 + 1 / 2 ^ 50) := by
    refine le_trans u4 ?_
    exact mul_le_mul_of_nonneg_left (by norm_num) hE
  have e : (0.3 : ℚ) * (c - d) / c = (c - d) / c * 0.3 := by ring
  rw [e, abs_le]
  constructor <;> linarith

theorem sq_down (x t : ℚ) (hx : 2 ^ 52 ≤ x) (h1 : x * x ≤ t) (h2 : t ≤ (x + 1 / 2) ^ 2) :
    t * ((1 - 1 / 2 ^ 53) * (1 - 1 / 2 ^ 53)) ≤ x * x ∧
      x * x ≤ t * ((1 + 1 / 2 ^ 53) * (1 + 1 / 2 ^ 53)) := by
  have hx0 : (0 : ℚ) ≤ x := le_trans (by norm_num) hx
  have ht : 0 ≤ t := le_trans (mul_self_nonneg x) h1
  constructor
  · have hk : (x + 1 / 2) * (1 - 1 / 2 ^ 53) ≤ x := by
      have : (1 / 2 : ℚ) ≤ x * (1 / 2 ^ 53) := by
        have := mul_le_mul_of_nonneg_right hx (show (0 : ℚ) ≤ 1 / 2 ^ 53 by norm_num)
        norm_num at this ⊢
        linarith
      nlinarith
    have hk0 : 0 ≤ (x + 1 / 2) * (1 - 1 / 2 ^ 53) :=
      mul_nonneg (by linarith) (by norm_num)
    calc t * ((1 - 1 / 2 ^ 53) * (1 - 1 / 2 ^ 53))
        ≤ (x + 1 / 2) ^ 2 * ((1 - 1 / 2 ^ 53) * (1 - 1 / 2 ^ 53)) :=
          mul_le_mul_of_nonneg_right h2 (by norm_num)
      _ = ((x + 1 / 2) * (1 - 1 / 2 ^ 53)) * ((x + 1 / 2) * (1 - 1 / 2 ^ 53)) := by ring
      _ ≤ x * x := mul_le_mul hk hk hk0 hx0
  · calc x * x ≤ t := h1
      _ = t * 1 := (mul_one t).symm
      _ ≤ t * ((1 + 1 / 2 ^ 53) * (1 + 1 / 2 ^ 53)) :=
          mul_le_mul_of_nonneg_left (by norm_num) ht

theorem sq_up (x t : ℚ) (hx : 2 ^ 52 ≤ x) (h1 : (x + 1 / 2) ^ 2 ≤ t)
    (h2 : t < (x + 1) * (x + 1)) :
    t * ((1 - 1 / 2 ^ 53) * (1 - 1 / 2 ^ 53)) ≤ (x + 1) * (x + 1) ∧
      (x + 1) * (x + 1) ≤ t * ((1 + 1 / 2 ^ 53) * (1 + 1 / 2 ^ 53)) := by
  have hx0 : (0 : ℚ) ≤ x := le_trans (by norm_num) hx
  have ht : 0 ≤ t := le_trans (sq_nonneg _) h1
  constructor
  · calc t * ((1 - 1 / 2 ^ 53) * (1 - 1 / 2 ^ 53)) ≤ t * 1 :=
          mul_le_mul_of_nonneg_left (by norm_num) ht
      _ = t := mul_one t
      _ ≤ (x + 1) * (x + 1) := h2.le
  · have hk : x + 1 ≤ (x + 1 / 2) * (1 + 1 / 2 ^ 53) := by
      have : (1 / 2 : ℚ) ≤ x * (1 / 2 ^ 53) := by
        have := mul_le_mul_of_nonneg_right hx (show (0 : ℚ) ≤ 1 / 2 ^ 53 by norm_num)
        norm_num at this ⊢
        linarith
      nlinarith
    calc (x + 1) * (x + 1)
        ≤ ((x + 1 / 2) * (1 + 1 / 2 ^ 53)) * ((x + 1 / 2) * (1 + 1 / 2 ^ 53)) :=
          mul_le_mul hk hk (by linarith) (le_trans (by linarith) hk)
      _ = (x + 1 / 2) ^ 2 * ((1 + 1 / 2 ^ 53) * (1 + 1 / 2 ^ 53)) := by ring
      _ ≤ t * ((1 + 1 / 2 ^ 53) * (1 + 1 / 2 ^ 53)) :=
          mul_le_mul_of_nonneg_right h1 (by norm_num)

/-- The scaled argument of `sqrtDouble` is at least `2^104`, so the integer root has 53
bits. -/
theorem sqrt_scaled_bounds (v : ℚ) (hv : 0 < v) :
    (2 : ℚ) ^ 104 ≤ v / (2 ^ (Int.log 2 v / 2 - 52) * 2 ^ (Int.log 2 v / 2 - 52)) := by
  have hb := (binade_bounds v (ne_of_gt hv)).1
  rw [abs_of_pos hv] at hb
  have hu := two_zpow_pos (Int.log 2 v / 2 - 52)
  rw [le_div_iff₀ (mul_pos hu hu)]
  have e : (2 : ℚ) ^ 104 * (2 ^ (Int.log 2 v / 2 - 52) * 2 ^ (Int.log 2 v / 2 - 52)) =
      2 ^ (2 * (Int.log 2 v / 2)) := by
    have : (2 : ℚ) ^ 104 = 2 ^ (104 : ℤ) := by norm_num
    rw [this, ← zpow_add₀ (by norm_num), ← zpow_add₀ (by norm_num)]
    congr 1
    ring
  rw [e]
  refine le_trans ?_ hb
  exact zpow_le_zpow_right₀ (by norm_num) (by omega)

theorem natSqrt_bounds (t : ℚ) (ht : 0 ≤ t) :
    ((Nat.sqrt ⌊t⌋₊ : ℕ) : ℚ) * (Nat.sqrt ⌊t⌋₊ : ℕ) ≤ t ∧
      t < ((Nat.sqrt ⌊t⌋₊ : ℕ) + 1 : ℚ) * ((Nat.sqrt ⌊t⌋₊ : ℕ) + 1) := by
  constructor
  · have h1 : Nat.sqrt ⌊t⌋₊ * Nat.sqrt ⌊t⌋₊ ≤ ⌊t⌋₊ := Nat.sqrt_le _
    have h2 : ((⌊t⌋₊ : ℕ) : ℚ) ≤ t := Nat.floor_le ht
    have h3 : ((Nat.sqrt ⌊t⌋₊ * Nat.sqrt ⌊t⌋₊ : ℕ) : ℚ) ≤ ((⌊t⌋₊ : ℕ) : ℚ) := by
      exact_mod_cast h1
    push_cast at h3
    linarith
  · have h1 : ⌊t⌋₊ < (Nat.sqrt ⌊t⌋₊ + 1) * (Nat.sqrt ⌊t⌋₊ + 1) := Nat.lt_succ_sqrt _
    have h2 : t < ((⌊t⌋₊ : ℕ) : ℚ) + 1 := Nat.lt_floor_add_one t
    have h3 : ((⌊t⌋₊ + 1 : ℕ) : ℚ) ≤ (((Nat.sqrt ⌊t⌋₊ + 1) * (Nat.sqrt ⌊t⌋₊ + 1) : ℕ) : ℚ) := by
      exact_mod_cast h1
    push_cast at h3
    linarith

/-- The square of `sqrtDouble v` is `v` up to the factor `(1 ± 2^-53)^2`: the result is
within one rounding of the real square root. -/
theorem sqrtDouble_sq (v : ℚ) (hv : 0 ≤ v) :
    v * ((1 - 1 / 2 ^ 53) * (1 - 1 / 2 ^ 53)) ≤ sqrtDouble v * sqrtDouble v ∧
      sqrtDouble v * sqrtDouble v ≤ v * ((1 + 1 / 2 ^ 53) * (1 + 1 / 2 ^ 53)) := by
  rcases eq_or_lt_of_le hv with h0 | hpos
  · rw [← h0, sqrtDouble_zero]
    norm_num
  have hlo := sqrt_scaled_bounds v hpos
  have hu := two_zpow_pos (Int.log 2 v / 2 - 52)
  simp only [sqrtDouble, if_neg (not_le.mpr hpos)]
  generalize (2 : ℚ) ^ (Int.log 2 v / 2 - 52) = u at hlo hu ⊢
  have hv_eq : v = v / (u * u) * (u * u) := by
    rw [div_mul_cancel₀ _ (ne_of_gt (mul_pos hu hu))]
  have ht0 : 0 ≤ v / (u * u) := le_trans (by norm_num) hlo
  obtain ⟨hn1, hn2⟩ := natSqrt_bounds (v / (u * u)) ht0
  have hx : (2 : ℚ) ^ 52 ≤ ((Nat.sqrt ⌊v / (u * u)⌋₊ : ℕ) : ℚ) := by
    by_contra hc
    have h1 : ((Nat.sqrt ⌊v / (u * u)⌋₊ : ℕ) : ℚ) < ((2 ^ 52 : ℕ) : ℚ) := by
      push_cast
      exact not_le.mp hc
    have h2 : Nat.sqrt ⌊v / (u * u)⌋₊ + 1 ≤ 2 ^ 52 := by
      have : Nat.sqrt ⌊v / (u * u)⌋₊ < 2 ^ 52 := by exact_mod_cast h1
      omega
    have h3 : ((Nat.sqrt ⌊v / (u * u)⌋₊ : ℕ) : ℚ) + 1 ≤ 2 ^ 52 := by exact_mod_cast h2
    have h4 : (0 : ℚ) ≤ ((Nat.sqrt ⌊v / (u * u)⌋₊ : ℕ) : ℚ) + 1 := by positivity
    have h5 := mul_le_mul h3 h3 h4 (by norm_num)
    have h6 : (2 : ℚ) ^ 52 * 2 ^ 52 = 2 ^ 104 := by norm_num
    linarith
  generalize v / (u * u) = t at hlo hv_eq ht0 hn1 hn2 hx ⊢
  have key : ∀ m : ℚ,
      (t * ((1 - 1 / 2 ^ 53) * (1 - 1 / 2 ^ 53)) ≤ m * m ∧
        m * m ≤ t * ((1 + 1 / 2 ^ 53) * (1 + 1 / 2 ^ 53))) →
      (v * ((1 - 1 / 2 ^ 53) * (1 - 1 / 2 ^ 53)) ≤ m * u * (m * u) ∧
        m * u * (m * u) ≤ v * ((1 + 1 / 2 ^ 53) * (1 + 1 / 2 ^ 53))) := by
    intro m hm
    have huu : 0 ≤ u * u := (mul_pos hu hu).le
    have e1 : m * u * (m * u) = m * m * (u * u) := by ring
    rw [e1, hv_eq]
    constructor
    · calc t * (u * u) * ((1 - 1 / 2 ^ 53) * (1 - 1 / 2 ^ 53))
          = t * ((1 - 1 / 2 ^ 53) * (1 - 1 / 2 ^ 53)) * (u * u) := by ring
        _ ≤ m * m * (u * u) := mul_le_mul_of_nonneg_right hm.1 huu
    · calc m * m * (u * u) ≤ t * ((1 + 1 / 2 ^ 53) * (1 + 1 / 2 ^ 53)) * (u * u) :=
            mul_le_mul_of_nonneg_right hm.2 huu
        _ = t * (u * u) * ((1 + 1 / 2 ^ 53) * (1 + 1 / 2 ^ 53)) := by ring
  split_ifs with c1 c2 c3
  · exact key _ (sq_down _ t hx hn1 c1.le)
  · exact key _ (sq_up _ t hx c2.le hn2)
  · exact key _ (sq_down _ t hx hn1 (not_lt.mp c2))
  · exact key _ (sq_up _ t hx (not_lt.mp c1) hn2)

/-- The square of a rounded number is the square of the number up to `(1 ± 2^-53)^2`. -/
theorem sq_rel (q : ℚ) :
    q * q * ((1 - 1 / 2 ^ 53) * (1 - 1 / 2 ^ 53)) ≤ roundDouble q * roundDouble q ∧
      roundDouble q * roundDouble q ≤ q * q * ((1 + 1 / 2 ^ 53) * (1 + 1 / 2 ^ 53)) := by
  have hr := roundDouble_rel q
  have h1 : |q| - |roundDouble q| ≤ |q| / 2 ^ 53 := by
    have := abs_sub_abs_le_abs_sub q (roundDouble q)
    rw [abs_sub_comm] at this
    linarith
  have h2 : |roundDouble q| - |q| ≤ |q| / 2 ^ 53 := by
    have := abs_sub_abs_le_abs_sub (roundDouble q) q
    linarith
  have ha : 0 ≤ |q| := abs_nonneg q
  have hb : 0 ≤ |roundDouble q| := abs_nonneg _
  have lo : |q| * (1 - 1 / 2 ^ 53) ≤ |roundDouble q| := by linarith
  have hi : |roundDouble q| ≤ |q| * (1 + 1 / 2 ^ 53) := by linarith
  have lo0 : 0 ≤ |q| * (1 - 1 / 2 ^ 53) := mul_nonneg ha (by norm_num)
  rw [← abs_mul_abs_self q, ← abs_mul_abs_self (roundDouble q)]
  constructor
  · calc |q| * |q| * ((1 - 1 / 2 ^ 53) * (1 - 1 / 2 ^ 53))
        = (|q| * (1 - 1 / 2 ^ 53)) * (|q| * (1 - 1 / 2 ^ 53)) := by ring
      _ ≤ |roundDouble q| * |roundDouble q| := mul_le_mul lo lo lo0 hb
  · calc |roundDouble q| * |roundDouble q|
        ≤ (|q| * (1 + 1 / 2 ^ 53)) * (|q| * (1 + 1 / 2 ^ 53)) :=
          mul_le_mul hi hi hb (le_trans hb hi)
      _ = |q| * |q| * ((1 + 1 / 2 ^ 53) * (1 + 1 / 2 ^ 53)) := by ring

/-- The square of the distance computed in doubles for a pair is the squared Euclidean
distance up to a factor within `2^-50` of 1. -/
theorem pairDistanceDouble_sq (p q : Particle ℚ) :
    ((p.x - q.x) * (p.x - q.x) + (p.y - q.y) * (p.y - q.y)) * (1 - 1 / 2 ^ 50) ≤
        pairDistanceDouble p q * pairDistanceDouble p q ∧
      pairDistanceDouble p q * pairDistanceDouble p q ≤
        ((p.x - q.x) * (p.x - q.x) + (p.y - q.y) * (p.y - q.y)) * (1 + 1 / 2 ^ 50) := by
  have hX : 0 ≤ (p.x - q.x) * (p.x - q.x) := mul_self_nonneg _
  have hY : 0 ≤ (p.y - q.y) * (p.y - q.y) := mul_self_nonneg _
  obtain ⟨lx, ux⟩ := sq_rel (p.x - q.x)
  obtain ⟨ly, uy⟩ := sq_rel (p.y - q.y)
  obtain ⟨lx2, ux2⟩ := rel_step _ _ _ _ hX (by norm_num) lx ux
  obtain ⟨ly2, uy2⟩ := rel_step _ _ _ _ hY (by norm_num) ly uy
  have hS : 0 ≤ (p.x - q.x) * (p.x - q.x) + (p.y - q.y) * (p.y - q.y) := add_nonneg hX hY
  have ls : ((p.x - q.x) * (p.x - q.x) + (p.y - q.y) * (p.y - q.y)) *
      ((1 - 1 / 2 ^ 53) * (1 - 1 / 2 ^ 53) * (1 - 1 / 2 ^ 53)) ≤
      fmul (fsub p.x q.x) (fsub p.x q.x) + fmul (fsub p.y q.y) (fsub p.y q.y) := by
    rw [add_mul]
    exact add_le_add lx2 ly2
  have us : fmul (fsub p.x q.x) (fsub p.x q.x) + fmul (fsub p.y q.y) (fsub p.y q.y) ≤
      ((p.x - q.x) * (p.x - q.x) + (p.y - q.y) * (p.y - q.y)) *
      ((1 + 1 / 2 ^ 53) * (1 + 1 / 2 ^ 53) * (1 + 1 / 2 ^ 53)) := by
    rw [add_mul]
    exact add_le_add ux2 uy2
  obtain ⟨l3, u3⟩ := rel_step _ _ _ _ hS (by norm_num) ls us
  have hs0 : 0 ≤ fadd (fmul (fsub p.x q.x) (fsub p.x q.x))
      (fmul (fsub p.y q.y) (fsub p.y q.y)) :=
    le_trans (mul_nonneg hS (by norm_num)) l3
  obtain ⟨l4, u4⟩ := sqrtDouble_sq _ hs0
  constructor
  · refine le_trans ?_ l4
    refine le_trans ?_ (mul_le_mul_of_nonneg_right l3 (by norm_num))
    rw [mul_assoc]
    exact mul_le_mul_of_nonneg_left (by norm_num) hS
  · refine le_trans u4 ?_
    refine le_trans (mul_le_mul_of_nonneg_right u3 (by norm_num)) ?_
    rw [mul_assoc]
    exact mul_le_mul_of_nonneg_left (by norm_num) hS

theorem pairDistanceDouble_nonneg (p q : Particle ℚ) : 0 ≤ pairDistanceDouble p q :=
  sqrtDouble_nonneg _

/-- With rounding, the test `distance < c` of the connection pass agrees with the Euclidean
test outside a relative margin of `2^-50` on the squared distance. -/
theorem pairDistanceDouble_lt (p q : Particle ℚ) (c : ℚ) (hc : 0 < c) :
    ((p.x - q.x) * (p.x - q.x) + (p.y - q.y) * (p.y - q.y) < c * c * (1 - 1 / 2 ^ 50) →
        pairDistanceDouble p q < c) ∧
    (pairDistanceDouble p q < c →
        ((p.x - q.x) * (p.x - q.x) + (p.y - q.y) * (p.y - q.y)) * (1 - 1 / 2 ^ 50) <
          c * c) := by
  obtain ⟨lo, hi⟩ := pairDistanceDouble_sq p q
  have hD := pairDistanceDouble_nonneg p q
  constructor
  · intro h
    by_contra hn
    have hcD : c ≤ pairDistanceDouble p q := not_lt.mp hn
    have h1 : c * c ≤ pairDistanceDouble p q * pairDistanceDouble p q :=
      mul_le_mul hcD hcD hc.le hD
    have h2 : ((p.x - q.x) * (p.x - q.x) + (p.y - q.y) * (p.y - q.y)) * (1 + 1 / 2 ^ 50) <
        c * c * (1 - 1 / 2 ^ 50) * (1 + 1 / 2 ^ 50) :=
      mul_lt_mul_of_pos_right h (by norm_num)
    have h3 : c * c * (1 - 1 / 2 ^ 50) * (1 + 1 / 2 ^ 50) ≤ c * c := by
      have hcc : 0 ≤ c * c := mul_self_nonneg c
      have : c * c * (1 - 1 / 2 ^ 50) * (1 + 1 / 2 ^ 50) =
          c * c * ((1 - 1 / 2 ^ 50) * (1 + 1 / 2 ^ 50)) := by ring
      rw [this]
      calc c * c * ((1 - 1 / 2 ^ 50) * (1 + 1 / 2 ^ 50)) ≤ c * c * 1 :=
            mul_le_mul_of_nonneg_left (by norm_num) hcc
        _ = c * c := mul_one _
    linarith
  · intro h
    have h1 : pairDistanceDouble p q * pairDistanceDouble p q < c * c :=
      mul_self_lt_mul_self hD h
    linarith

/-- C5 as stated fails in double arithmetic: the opacity is not strictly decreasing (the
adjacent doubles 1 and `1 + 2^-52` give the same value at `c = 100`) and it is not
`0.3 * (c - d) / c` (at `d = 25`, `c = 100` the code's value differs from 0.225). -/
theorem C5_opacity_counterexample :
    (1 : ℚ) < 1 + 1 / 2 ^ 52 ∧
    ¬ (lineAlphaDouble 100 (1 + 1 / 2 ^ 52) < lineAlphaDouble 100 1) ∧
    lineAlphaDouble 100 25 ≠ 0.3 * (100 - 25) / 100 := by
  have h1 : fsub 100 (1 + 1 / 2 ^ 52) = 99 := by
    rw [fsub, roundDouble_eval_pos _ 6 6966505673588736] <;> norm_num
  have h2 : fsub 100 1 = 99 := by
    have e : (100 : ℚ) - 1 = 99 := by norm_num
    rw [fsub, e]
    exact roundDouble_of_isDouble _ ⟨99, 0, by norm_num, by norm_num⟩
  have h3 : fdiv (fsub 100 25) 100 = 3 / 4 := by
    have e : (100 : ℚ) - 25 = 75 := by norm_num
    rw [fsub, e, roundDouble_of_isDouble 75 ⟨75, 0, by norm_num, by norm_num⟩]
    have e2 : (75 : ℚ) / 100 = 3 / 4 := by norm_num
    rw [fdiv, e2]
    exact roundDouble_of_isDouble _ ⟨3, -2, by norm_num, by norm_num⟩
  have h4 : roundDouble 0.3 = 5404319552844595 * 2 ^ (-54 : ℤ) := by
    rw [roundDouble_eval_pos _ (-2) 5404319552844595] <;> norm_num
  have h5 : fmul (3 / 4) (5404319552844595 * 2 ^ (-54 : ℤ)) =
      8106479329266892 * 2 ^ (-55 : ℤ) := by
    rw [fmul, roundDouble_eval_tie_pos _ (-3) 8106479329266892] <;> norm_num
  refine ⟨by norm_num, ?_, ?_⟩
  · simp only [lineAlphaDouble, h1, h2]
    exact lt_irrefl _
  · simp only [lineAlphaDouble, h3, h4, h5]
    norm_num

/-- C5, amended: in double arithmetic the opacity set for a connection line at pair distance
`d`, with connection distance a double `c > 0`, is `(c - d) / c * 0.3` with every operation
rounded: it is 0 at `d = c`, the double 0.3 at `d = 0`, non-increasing in `d`, within
`[0, 0.3]` for `0 ≤ d ≤ c`, and there within `2^-50` (relative) of `0.3 * (c - d) / c`;
every line stroked by the connection pass carries this value at the distance computed for
its pair. -/
theorem C5_line_opacity_double (c : ℚ) (hc : 0 < c) (hcD : IsDouble c) :
    lineAlphaDouble c c = 0 ∧
    lineAlphaDouble c 0 = roundDouble 0.3 ∧
    (∀ d1 d2, d1 ≤ d2 → lineAlphaDouble c d2 ≤ lineAlphaDouble c d1) ∧
    (∀ d, 0 ≤ d → d ≤ c →
      0 ≤ lineAlphaDouble c d ∧ lineAlphaDouble c d ≤ roundDouble 0.3) ∧
    (∀ d, 0 ≤ d → d ≤ c →
      |lineAlphaDouble c d - 0.3 * (c - d) / c| ≤ 0.3 * (c - d) / c / 2 ^ 50) ∧
    (∀ (ps : List (Particle ℚ)), ∀ l ∈ connectionsDouble c ps, ∃ p q,
      ps[l.i]? = some p ∧ ps[l.j]? = some q ∧
      l.alpha = fmul (fdiv (fsub c (pairDistanceDouble p q)) c) (roundDouble 0.3)) := by
  refine ⟨lineAlphaDouble_self c, lineAlphaDouble_zero c hc hcD,
    fun d1 d2 h => lineAlphaDouble_anti c hc h, ?_,
    fun d _ h1 => lineAlphaDouble_near c d hc h1, ?_⟩
  · intro d h0 h1
    constructor
    · have := lineAlphaDouble_anti c hc h1
      rwa [lineAlphaDouble_self] at this
    · have := lineAlphaDouble_anti c hc h0
      rwa [lineAlphaDouble_zero c hc hcD] at this
  · intro ps l hl
    simp only [connectionsDouble, List.mem_filterMap] at hl
    obtain ⟨ij, -, hij⟩ := hl
    obtain ⟨p, q, hp, hq, -, rfl⟩ := connectionDouble_some c ps _ _ l hij
    exact ⟨p, q, hp, hq, rfl⟩

/-- Witness of the amended C5 at connection distance 100. -/
theorem C5_line_opacity_double_witness :
    ((0 : ℚ) < 100 ∧ IsDouble 100) ∧ lineAlphaDouble 100 100 = 0 ∧
    lineAlphaDouble 100 0 = roundDouble 0.3 ∧
    lineAlphaDouble 100 50 ≤ lineAlphaDouble 100 25 ∧
    (0 ≤ lineAlphaDouble 100 50 ∧ lineAlphaDouble 100 50 ≤ roundDouble 0.3) ∧
    |lineAlphaDouble 100 25 - 0.3 * (100 - 25) / 100| ≤ 0.3 * (100 - 25) / 100 / 2 ^ 50 :=
  have h := C5_line_opacity_double 100 (by norm_num) isDouble_hundred
  ⟨⟨by norm_num, isDouble_hundred⟩, h.1, h.2.1, h.2.2.1 25 50 (by norm_num),
    h.2.2.2.1 50 (by norm_num) (by norm_num),
    h.2.2.2.2.1 25 (by norm_num) (by norm_num)⟩

theorem connectionsDouble_indices (c : ℚ) (ps : List (Particle ℚ)) :
    (connectionsDouble c ps).map (fun l => (l.i, l.j)) =
      (pairLoop ps.length).filter
        (fun ij => (connectionDouble c ps ij.1 ij.2).isSome) := by
  unfold connectionsDouble
  induction pairLoop ps.length with
  | nil => rfl
  | cons ij t ih =>
    cases h : connectionDouble c ps ij.1 ij.2 with
    | none => simp [List.filterMap_cons, List.filter_cons, h, ih]
    | some l =>
      obtain ⟨p, q, -, -, -, rfl⟩ := connectionDouble_some c ps _ _ l h
      simp [List.filterMap_cons, List.filter_cons, h, ih]

theorem roundDouble_intCast (q : ℚ) (n : ℤ) (hq : q = n) (hn : |n| ≤ 2 ^ 53) :
    roundDouble q = n := by
  rw [hq]
  exact roundDouble_of_isDouble _ (isDouble_int n hn)

theorem sumSquaresDouble_int (a b : ℚ) (m n : ℤ) (ha : a = m) (hb : b = n)
    (hm : |m * m| ≤ 2 ^ 53) (hn : |n * n| ≤ 2 ^ 53) (hs : |m * m + n * n| ≤ 2 ^ 53) :
    fadd (fmul a a) (fmul b b) = ((m * m + n * n : ℤ) : ℚ) := by
  have h1 : fmul a a = ((m * m : ℤ) : ℚ) :=
    roundDouble_intCast _ _ (by rw [ha]; push_cast; ring) hm
  have h2 : fmul b b = ((n * n : ℤ) : ℚ) :=
    roundDouble_intCast _ _ (by rw [hb]; push_cast; ring) hn
  rw [h1, h2]
  exact roundDouble_intCast _ _ (by push_cast; ring) hs

theorem three_dist_ab (a b : Particle ℚ) (hax : a.x = 0) (hay : a.y = 0) (hbx : b.x = 50)
    (hby : b.y = 0) : pairDistanceDouble a b = 50 := by
  have hdx : fsub a.x b.x = ((-50 : ℤ) : ℚ) :=
    roundDouble_intCast _ _ (by rw [hax, hbx]; norm_num) (by norm_num)
  have hdy : fsub a.y b.y = ((0 : ℤ) : ℚ) :=
    roundDouble_intCast _ _ (by rw [hay, hby]; norm_num) (by norm_num)
  simp only [pairDistanceDouble]
  rw [sumSquaresDouble_int _ _ (-50) 0 hdx hdy (by norm_num) (by norm_num) (by norm_num)]
  rw [sqrtDouble_eval_down _ 11 5 7036874417766400] <;> norm_num

theorem three_dist_ae (a e : Particle ℚ) (hax : a.x = 0) (hay : a.y = 0) (hex : e.x = 200)
    (hey : e.y = 200) :
    pairDistanceDouble a e = 4975821619160760 * 2 ^ (-44 : ℤ) := by
  have hdx : fsub a.x e.x = ((-200 : ℤ) : ℚ) :=
    roundDouble_intCast _ _ (by rw [hax, hex]; norm_num) (by norm_num)
  have hdy : fsub a.y e.y = ((-200 : ℤ) : ℚ) :=
    roundDouble_intCast _ _ (by rw [hay, hey]; norm_num) (by norm_num)
  simp only [pairDistanceDouble]
  rw [sumSquaresDouble_int _ _ (-200) (-200) hdx hdy (by norm_num) (by norm_num)
    (by norm_num)]
  rw [sqrtDouble_eval_up _ 16 8 4975821619160759] <;> norm_num

theorem three_dist_be (b e : Particle ℚ) (hbx : b.x = 50) (hby : b.y = 0) (hex : e.x = 200)
    (hey : e.y = 200) : pairDistanceDouble b e = 250 := by
  have hdx : fsub b.x e.x = ((-150 : ℤ) : ℚ) :=
    roundDouble_intCast _ _ (by rw [hbx, hex]; norm_num) (by norm_num)
  have hdy : fsub b.y e.y = ((-200 : ℤ) : ℚ) :=
    roundDouble_intCast _ _ (by rw [hby, hey]; norm_num) (by norm_num)
  simp only [pairDistanceDouble]
  rw [sumSquaresDouble_int _ _ (-150) (-200) hdx hdy (by norm_num) (by norm_num)
    (by norm_num)]
  rw [sqrtDouble_eval_down _ 15 7 8796093022208000] <;> norm_num

/-- The opacity at distance 50 with connection distance 100: half the double 0.3. -/
theorem lineAlphaDouble_fifty :
    lineAlphaDouble 100 50 = 5404319552844595 / 2 ^ 55 := by
  have h1 : fsub 100 50 = ((50 : ℤ) : ℚ) :=
    roundDouble_intCast _ _ (by norm_num) (by norm_num)
  have h2 : fdiv ((50 : ℤ) : ℚ) 100 = 1 / 2 := by
    have e : (((50 : ℤ) : ℚ)) / 100 = 1 / 2 := by norm_num
    rw [fdiv, e]
    exact roundDouble_of_isDouble _ ⟨1, -1, by norm_num, by norm_num⟩
  have h4 : roundDouble 0.3 = 5404319552844595 * 2 ^ (-54 : ℤ) := by
    rw [roundDouble_eval_pos _ (-2) 5404319552844595] <;> norm_num
  have h5 : fmul (1 / 2) (5404319552844595 * 2 ^ (-54 : ℤ)) = 5404319552844595 / 2 ^ 55 := by
    have e : (1 / 2 : ℚ) * (5404319552844595 * 2 ^ (-54 : ℤ)) =
        5404319552844595 / 2 ^ 55 := by norm_num
    rw [fmul, e]
    exact roundDouble_of_isDouble _ ⟨5404319552844595, -55, by norm_num, by norm_num⟩
  simp only [lineAlphaDouble, h1, h2, h4, h5]

theorem connectionsDouble_three (a b e : Particle ℚ)
    (hax : a.x = 0) (hay : a.y = 0) (hbx : b.x = 50) (hby : b.y = 0)
    (hex : e.x = 200) (hey : e.y = 200) :
    connectionsDouble 100 [a, b, e] =
      [{ i := 0, j := 1, alpha := 5404319552844595 / 2 ^ 55,
         x1 := 0, y1 := 0, x2 := 50, y2 := 0 }] := by
  have h01 := connectionDouble_of 100 [a, b, e] 0 1 a b rfl rfl
  have h02 := connectionDouble_of 100 [a, b, e] 0 2 a e rfl rfl
  have h12 := connectionDouble_of 100 [a, b, e] 1 2 b e rfl rfl
  rw [three_dist_ab a b hax hay hbx hby, if_pos (by norm_num)] at h01
  rw [three_dist_ae a e hax hay hex hey, if_neg (by norm_num)] at h02
  rw [three_dist_be b e hbx hby hex hey, if_neg (by norm_num)] at h12
  simp only [connectionsDouble, List.length_cons, List.length_nil, Nat.zero_add,
    Nat.reduceAdd, pairLoop_three, List.filterMap_cons, List.filterMap_nil, h01, h02, h12]
  rw [lineAlphaDouble_fifty, hax, hay, hbx, hby]

theorem pairLoop_two : pairLoop 2 = [(0, 1)] := by
  decide

/-- The distance the code computes for `nearA` and `nearB` is exactly 100. -/
theorem near_distance : pairDistanceDouble nearA nearB = 100 := by
  have hdx : fsub nearA.x nearB.x = -96 := by
    have e : nearA.x - nearB.x = ((-96 : ℤ) : ℚ) := by norm_num [nearA, nearB]
    rw [fsub, roundDouble_intCast _ (-96) e (by norm_num)]
    norm_num
  have hdy : fsub nearA.y nearB.y = -(28 - 1 / 2 ^ 48) := by
    have e : nearA.y - nearB.y = -(28 - 1 / 2 ^ 48) := by norm_num [nearA, nearB]
    rw [fsub, e]
    exact roundDouble_of_isDouble _ ⟨-7881299347898367, -48, by norm_num, by norm_num⟩
  have hxx : fmul (-96) (-96) = 9216 := by
    have e : (-96 : ℚ) * (-96) = ((9216 : ℤ) : ℚ) := by norm_num
    rw [fmul, roundDouble_intCast _ 9216 e (by norm_num)]
    norm_num
  have hyy : fmul (-(28 - 1 / 2 ^ 48)) (-(28 - 1 / 2 ^ 48)) = 784 - 1 / 2 ^ 42 := by
    rw [fmul, roundDouble_eval_pos _ 9 6896136929411070] <;> norm_num
  have hs : fadd 9216 (784 - 1 / 2 ^ 42) = 10000 := by
    rw [fadd, roundDouble_eval_pos _ 13 5497558138880000] <;> norm_num
  have hq : sqrtDouble 10000 = 100 := by
    rw [sqrtDouble_eval_down _ 13 6 7036874417766400] <;> norm_num
  simp only [pairDistanceDouble, hdx, hdy, hxx, hyy, hs, hq]

theorem connectionsDouble_two_none (c : ℚ) (a b : Particle ℚ)
    (h : ¬ pairDistanceDouble a b < c) : connectionsDouble c [a, b] = [] := by
  have h01 := connectionDouble_of c [a, b] 0 1 a b rfl rfl
  rw [if_neg h] at h01
  simp only [connectionsDouble, List.length_cons, List.length_nil, Nat.zero_add,
    Nat.reduceAdd, pairLoop_two, List.filterMap_cons, List.filterMap_nil, h01]

/-- C6 as stated fails in double arithmetic: `nearA` and `nearB` are at Euclidean distance
strictly below 100, but the code computes the distance 100 and, with
`connectionDistance = 100`, strokes no line for them. -/
theorem C6_rounded_distance_counterexample :
    (nearA.x - nearB.x) * (nearA.x - nearB.x) + (nearA.y - nearB.y) * (nearA.y - nearB.y) <
      100 * 100 ∧
    pairDistanceDouble nearA nearB = 100 ∧
    connectionsDouble 100 [nearA, nearB] = [] := by
  refine ⟨by norm_num [nearA, nearB], near_distance, ?_⟩
  apply connectionsDouble_two_none
  rw [near_distance]
  exact lt_irrefl _

/-- C6, amended: in double arithmetic `drawParticles` strokes a line for the pair `(i, j)`,
`i < j`, exactly when the distance the code computes for the two particles,
`Math.sqrt(dx * dx + dy * dy)` with every operation rounded, is strictly below
`connectionDistance`; every line stroked joins such a pair, from the first particle's
position to the second's, and no pair is joined twice.  Against the Euclidean distance the
test is right outside a margin of `2^-50` (relative, on the squared distance) around
`connectionDistance`: a pair below the margin has a line, a pair with a line is not above
it.  For particles at `(0,0)`, `(50,0)`, `(200,200)` and `connectionDistance = 100` the
lines are exactly one, between `(0,0)` and `(50,0)`. -/
theorem C6_connection_lines_double (c : ℚ) (ps : List (Particle ℚ)) :
    (∀ l ∈ connectionsDouble c ps,
      l.i < l.j ∧ l.j < ps.length ∧
      ∃ p q, ps[l.i]? = some p ∧ ps[l.j]? = some q ∧
        pairDistanceDouble p q < c ∧
        l.x1 = p.x ∧ l.y1 = p.y ∧ l.x2 = q.x ∧ l.y2 = q.y) ∧
    (∀ (i j : Nat) (p q : Particle ℚ), i < j → ps[i]? = some p → ps[j]? = some q →
      ((∃ l ∈ connectionsDouble c ps, l.i = i ∧ l.j = j) ↔ pairDistanceDouble p q < c)) ∧
    ((connectionsDouble c ps).map fun l => (l.i, l.j)).Nodup ∧
    (∀ (i j : Nat) (p q : Particle ℚ), i < j → ps[i]? = some p → ps[j]? = some q → 0 < c →
      ((p.x - q.x) * (p.x - q.x) + (p.y - q.y) * (p.y - q.y) < c * c * (1 - 1 / 2 ^ 50) →
        ∃ l ∈ connectionsDouble c ps, l.i = i ∧ l.j = j) ∧
      ((∃ l ∈ connectionsDouble c ps, l.i = i ∧ l.j = j) →
        ((p.x - q.x) * (p.x - q.x) + (p.y - q.y) * (p.y - q.y)) * (1 - 1 / 2 ^ 50) <
          c * c)) ∧
    (∀ a b e : Particle ℚ, a.x = 0 → a.y = 0 → b.x = 50 → b.y = 0 → e.x = 200 → e.y = 200 →
      ps = [a, b, e] → c = 100 →
      connectionsDouble c ps =
        [{ i := 0, j := 1, alpha := 5404319552844595 / 2 ^ 55,
           x1 := 0, y1 := 0, x2 := 50, y2 := 0 }]) := by
  have hiff : ∀ (i j : Nat) (p q : Particle ℚ), i < j → ps[i]? = some p →
      ps[j]? = some q →
      ((∃ l ∈ connectionsDouble c ps, l.i = i ∧ l.j = j) ↔ pairDistanceDouble p q < c) := by
    intro i j p q hij hp hq
    have hj : j < ps.length := by
      by_contra h
      rw [List.getElem?_eq_none (not_lt.mp h)] at hq
      exact absurd hq (by simp)
    have hmem : (∃ l ∈ connectionsDouble c ps, l.i = i ∧ l.j = j) ↔
        (i, j) ∈ (connectionsDouble c ps).map (fun l => (l.i, l.j)) := by
      simp only [List.mem_map, Prod.mk.injEq]
    rw [hmem, connectionsDouble_indices, List.mem_filter, mem_pairLoop,
      connectionDouble_of c ps i j p q hp hq]
    by_cases hd : pairDistanceDouble p q < c
    · simp [hd, hij, hj]
    · simp [hd]
  refine ⟨?_, hiff, ?_, ?_, ?_⟩
  · intro l hl
    simp only [connectionsDouble, List.mem_filterMap] at hl
    obtain ⟨⟨i, j⟩, hmem, hij⟩ := hl
    obtain ⟨p, q, hp, hq, hd, rfl⟩ := connectionDouble_some c ps _ _ l hij
    have := (mem_pairLoop _ _ _).mp hmem
    exact ⟨this.1, this.2, p, q, hp, hq, hd, rfl, rfl, rfl, rfl⟩
  · rw [connectionsDouble_indices]
    exact (pairLoop_nodup _).filter _
  · intro i j p q hij hp hq hc
    obtain ⟨h1, h2⟩ := pairDistanceDouble_lt p q c hc
    exact ⟨fun h => (hiff i j p q hij hp hq).mpr (h1 h),
      fun h => h2 ((hiff i j p q hij hp hq).mp h)⟩
  · intro a b e hax hay hbx hby hex hey hps hc
    rw [hps, hc]
    exact connectionsDouble_three a b e hax hay hbx hby hex hey

/-- Witness of the amended C6: for `nearA` and `nearB` the pair `(0, 1)` has a line exactly
when the computed distance is below the connection distance, here 101. -/
theorem C6_connection_lines_double_witness :
    ((0 : Nat) < 1 ∧ [nearA, nearB][0]? = some nearA ∧ [nearA, nearB][1]? = some nearB) ∧
    ((∃ l ∈ connectionsDouble 101 [nearA, nearB], l.i = 0 ∧ l.j = 1) ↔
      pairDistanceDouble nearA nearB < 101) ∧
    pairDistanceDouble nearA nearB < 101 :=
  ⟨⟨by decide, rfl, rfl⟩,
    (C6_connection_lines_double 101 [nearA, nearB]).2.1 0 1 nearA nearB (by decide) rfl rfl,
    by rw [near_distance]; norm_num⟩

end Portfolio
